import Mathlib

set_option maxRecDepth 100000

/-!
Verification development for the code-compass repository.

The definitions below are shallow embeddings of the Python sources:
  - apps/indexer/indexer/chunk.py        (line chunker, chunk identity)
  - apps/indexer/indexer/embedder.py     (retry/backoff embedding client)
  - apps/indexer/indexer/qdrant_store.py (collection lifecycle)
  - apps/indexer/indexer/__main__.py     (classifier, index command decision)
  - apps/acp/src/code_compass_acp/chunker.py (paragraph chunker)
  - apps/acp/src/code_compass_acp/agent.py   (scope resolution, model command)

Python strings are modelled as Lean `String` or `List Char` (sequences of
unicode code points, which matches Python `str` semantics); machine behavior
relevant to hashing is modelled over `Nat` with explicit `% 2^32`.
-/

namespace CodeCompass

/-! ## SHA-256 (the semantics of Python `hashlib.sha256`, FIPS 180-4) -/

namespace SHA256

/-- 2^32, the modulus for 32-bit words. -/
def M32 : Nat := 4294967296

/-- Addition modulo 2^32. -/
def add32 (a b : Nat) : Nat := (a + b) % M32

/-- Right rotation of a 32-bit word by `n` bits. -/
def rotr (n x : Nat) : Nat := ((x >>> n) ||| (x <<< (32 - n))) % M32

/-- Big sigma-0 compression function. -/
def bsig0 (x : Nat) : Nat := (rotr 2 x) ^^^ (rotr 13 x) ^^^ (rotr 22 x)

/-- Big sigma-1 compression function. -/
def bsig1 (x : Nat) : Nat := (rotr 6 x) ^^^ (rotr 11 x) ^^^ (rotr 25 x)

/-- Small sigma-0 message schedule function. -/
def ssig0 (x : Nat) : Nat := (rotr 7 x) ^^^ (rotr 18 x) ^^^ (x >>> 3)

/-- Small sigma-1 message schedule function. -/
def ssig1 (x : Nat) : Nat := (rotr 17 x) ^^^ (rotr 19 x) ^^^ (x >>> 10)

/-- Choice function: bitwise x ? y : z. -/
def ch (x y z : Nat) : Nat := (x &&& y) ^^^ ((x ^^^ (M32 - 1)) &&& z)

/-- Majority function. -/
def maj (x y z : Nat) : Nat := (x &&& y) ^^^ (x &&& z) ^^^ (y &&& z)

/-- The 64 round constants of SHA-256. -/
def K : List Nat :=
  [1116352408, 1899447441, 3049323471, 3921009573,
   961987163, 1508970993, 2453635748, 2870763221,
   3624381080, 310598401, 607225278, 1426881987,
   1925078388, 2162078206, 2614888103, 3248222580,
   3835390401, 4022224774, 264347078, 604807628,
   770255983, 1249150122, 1555081692, 1996064986,
   2554220882, 2821834349, 2952996808, 3210313671,
   3336571891, 3584528711, 113926993, 338241895,
   666307205, 773529912, 1294757372, 1396182291,
   1695183700, 1986661051, 2177026350, 2456956037,
   2730485921, 2820302411, 3259730800, 3345764771,
   3516065817, 3600352804, 4094571909, 275423344,
   430227734, 506948616, 659060556, 883997877,
   958139571, 1322822218, 1537002063, 1747873779,
   1955562222, 2024104815, 2227730452, 2361852424,
   2428436474, 2756734187, 3204031479, 3329325298]

/-- The initial hash value of SHA-256. -/
def initH : List Nat :=
  [1779033703, 3144134277, 1013904242, 2773480762,
   1359893119, 2600822924, 528734635, 1541459225]

/-- Big-endian byte decomposition of `value` into `count` bytes. -/
def beBytes (count value : Nat) : List Nat :=
  (List.range count).map (fun i => (value >>> (8 * (count - 1 - i))) % 256)

/-- The SHA-256 padding for a message of `len` bytes: a 0x80 byte, zeros up to
56 mod 64, then the bit length on 8 big-endian bytes. -/
def padding (len : Nat) : List Nat :=
  0x80 :: List.replicate ((119 - (len % 64)) % 64) 0 ++ beBytes 8 (8 * len)

/-- Pad a byte message to a multiple of 64 bytes. -/
def pad (msg : List Nat) : List Nat := msg ++ padding msg.length

/-- Group bytes into 32-bit big-endian words. -/
def toWords : List Nat → List Nat
  | b0 :: b1 :: b2 :: b3 :: rest =>
      ((b0 <<< 24) ||| (b1 <<< 16) ||| (b2 <<< 8) ||| b3) :: toWords rest
  | _ => []

/-- Group a word list into blocks of 16 words (fueled; the fuel is always
sufficient because each step consumes at least one word). -/
def blocksGo : Nat → List Nat → List (List Nat)
  | 0, _ => []
  | _ + 1, [] => []
  | fuel + 1, ws => ws.take 16 :: blocksGo fuel (ws.drop 16)

/-- Group a word list into blocks of 16 words. -/
def toBlocks (ws : List Nat) : List (List Nat) := blocksGo ws.length ws

/-- Message schedule extension: append `fuel` more words. -/
def extendW : Nat → List Nat → List Nat
  | 0, w => w
  | fuel + 1, w =>
      let n := w.length
      extendW fuel
        (w ++ [add32 (add32 (ssig1 (w.getD (n - 2) 0)) (w.getD (n - 7) 0))
                 (add32 (ssig0 (w.getD (n - 15) 0)) (w.getD (n - 16) 0))])

/-- The 8-word working state of the compression loop. -/
structure St where
  a : Nat
  b : Nat
  c : Nat
  d : Nat
  e : Nat
  f : Nat
  g : Nat
  h : Nat

/-- One round of the SHA-256 compression loop; `kw` is the pair of the
message-schedule word and the round constant. -/
def round1 (s : St) (kw : Nat × Nat) : St :=
  let t1 := add32 s.h (add32 (bsig1 s.e) (add32 (ch s.e s.f s.g) (add32 kw.1 kw.2)))
  let t2 := add32 (bsig0 s.a) (maj s.a s.b s.c)
  ⟨add32 t1 t2, s.a, s.b, s.c, add32 s.d t1, s.e, s.f, s.g⟩

/-- Compress one 16-word block into the running hash. -/
def compress (hs : List Nat) (block : List Nat) : List Nat :=
  let w := extendW 48 block
  let s0 : St := ⟨hs.getD 0 0, hs.getD 1 0, hs.getD 2 0, hs.getD 3 0,
                  hs.getD 4 0, hs.getD 5 0, hs.getD 6 0, hs.getD 7 0⟩
  let sf := (w.zip K).foldl round1 s0
  [add32 (hs.getD 0 0) sf.a, add32 (hs.getD 1 0) sf.b,
   add32 (hs.getD 2 0) sf.c, add32 (hs.getD 3 0) sf.d,
   add32 (hs.getD 4 0) sf.e, add32 (hs.getD 5 0) sf.f,
   add32 (hs.getD 6 0) sf.g, add32 (hs.getD 7 0) sf.h]

/-- SHA-256 digest (32 bytes) of a byte message. -/
def sha256Bytes (msg : List Nat) : List Nat :=
  let hs := (toBlocks (toWords (pad msg))).foldl compress initH
  hs.flatMap (fun wv => beBytes 4 wv)

/-- Lower-case hexadecimal digit for a value below 16. -/
def hexDigitChar (n : Nat) : Char := if n < 10 then Char.ofNat (48 + n) else Char.ofNat (87 + n)

/-- Two lower-case hex characters of one byte. -/
def byteToHexChars (b : Nat) : List Char := [hexDigitChar (b / 16), hexDigitChar (b % 16)]

/-- Lower-case hex string of a byte list, as Python hexdigest renders it. -/
def bytesToHex (bs : List Nat) : String := String.mk (bs.flatMap byteToHexChars)

/-- UTF-8 encoding of a single code point. -/
def utf8EncodeChar (n : Nat) : List Nat :=
  if n < 0x80 then [n]
  else if n < 0x800 then
    [0xC0 ||| (n >>> 6), 0x80 ||| (n &&& 0x3F)]
  else if n < 0x10000 then
    [0xE0 ||| (n >>> 12), 0x80 ||| ((n >>> 6) &&& 0x3F), 0x80 ||| (n &&& 0x3F)]
  else
    [0xF0 ||| (n >>> 18), 0x80 ||| ((n >>> 12) &&& 0x3F),
     0x80 ||| ((n >>> 6) &&& 0x3F), 0x80 ||| (n &&& 0x3F)]

/-- UTF-8 bytes of a string, the semantics of Python str.encode with utf-8. -/
def utf8Bytes (s : String) : List Nat := s.toList.flatMap (fun c => utf8EncodeChar c.toNat)

end SHA256

/-- Hex digest of the SHA-256 of the UTF-8 encoding of a string: the semantics
of Python hashlib.sha256 composed with str.encode and hexdigest. -/
def sha256HexOfString (s : String) : String :=
  SHA256.bytesToHex (SHA256.sha256Bytes (SHA256.utf8Bytes s))

/-! ## Line chunker: apps/indexer/indexer/chunk.py

The Python loop of `_chunk_lines_impl` is

    step = chunk_lines - overlap
    start_index = 0
    while start_index < len(lines):
        end_index = min(start_index + chunk_lines, len(lines))
        block = lines[start_index:end_index]
        if block:
            chunks.append((start_index + 1, end_index, block))
        if end_index >= len(lines):
            break
        start_index += step

It is embedded as a fueled recursion; with `overlap < chunk_lines` the step is
at least 1, so a fuel of `len(lines) + 1` is always sufficient and the fueled
function agrees with the unbounded loop. -/

/-- One iteration state of the `_chunk_lines_impl` while-loop, fueled.
The slice `lines[start_index:end_index]` is `(lines.drop i).take c`. -/
def chunkGo (lines : List String) (c step : Nat) : Nat → Nat → List (Nat × Nat × List String)
  | 0, _ => []
  | fuel + 1, i =>
    if i < lines.length then
      let e := min (i + c) lines.length
      let block := (lines.drop i).take c
      let tail := if lines.length ≤ e then [] else chunkGo lines c step fuel (i + step)
      if block.isEmpty then tail else (i + 1, e, block) :: tail
    else []

/-- Embedding of `_chunk_lines_impl(lines, chunk_lines=c, overlap=o)`. -/
def chunk_lines_impl (lines : List String) (c o : Nat) : List (Nat × Nat × List String) :=
  if lines.isEmpty then [] else chunkGo lines c (c - o) (lines.length + 1) 0

/-- Embedding of `hash_content`: SHA-256 hex digest of the whole decoded text. -/
def hash_content (content : String) : String := sha256HexOfString content

/-- Embedding of `make_chunk_id`: the composed string uses the `:` separator,
exactly as in the source (`f"{path}:{start}:{end}:{content_hash}"`). -/
def make_chunk_id (path : String) (start stop : Nat) (contentHash : String) : String :=
  sha256HexOfString (path ++ ":" ++ toString start ++ ":" ++ toString stop ++ ":" ++ contentHash)

/-- Helper for `splitlines`: scan the character list, accumulating the current
line (reversed); line terminators are CRLF, CR and LF. Python also treats
the rarer terminators (vertical tab, form feed, U+001C..U+001E, U+0085,
U+2028, U+2029) as line breaks; the texts in this development contain none
of them. -/
def splitlinesAux : List Char → List Char → List String
  | [], acc => if acc.isEmpty then [] else [String.mk acc.reverse]
  | '\r' :: '\n' :: rest, acc => String.mk acc.reverse :: splitlinesAux rest []
  | '\r' :: rest, acc => String.mk acc.reverse :: splitlinesAux rest []
  | '\n' :: rest, acc => String.mk acc.reverse :: splitlinesAux rest []
  | cc :: rest, acc => splitlinesAux rest (cc :: acc)

/-- Embedding of Python `str.splitlines()` (terminators not kept). -/
def splitlines (s : String) : List String := splitlinesAux s.toList []

/-- A produced chunk record, the pure fields of the dicts built by `chunk_file`. -/
structure FileChunk where
  chunkId : String
  contentHash : String
  path : String
  startLine : Nat
  endLine : Nat
  content : String
deriving DecidableEq, Repr

/-- Pure core of `chunk_file`: given the normalized identity path and the
decoded text (the file system reading, encoding detection and path
normalization are I/O and are not modelled), produce the chunk records. -/
def chunk_file (path : String) (text : String) (chunkLines overlap : Nat) : List FileChunk :=
  let lines := splitlines text
  let contentHash := hash_content text
  (chunk_lines_impl lines chunkLines overlap).map (fun w =>
    { chunkId := make_chunk_id path w.1 w.2.1 contentHash
      contentHash := contentHash
      path := path
      startLine := w.1
      endLine := w.2.1
      content := "\n".intercalate w.2.2 })

/-- The 7-line example file used by the chunker identity scenario. -/
def c2Text : String := "a\nb\nc\nd\ne\nf\ng"

/-- A placeholder chunk record, used only to take the head of a list that is
separately proved non-empty. -/
def dummyFileChunk : FileChunk := ⟨"", "", "", 0, 0, ""⟩

/-! ## Index command decision: apps/indexer/indexer/__main__.py, `_index_command`

After chunking, the command computes
`file_coverage = (len(indexed_files) / len(files)) if files else 1.0`, then
checks `if not all_chunks` (status `empty`, return 0) and only afterwards
`if file_coverage < min_coverage` (status `insufficient_coverage`, return 1).
Python float division is modelled by exact rational division. -/

/-- Outcome of the post-chunking decision of the `index` command. -/
structure IndexOutcome where
  status : String
  exitCode : Nat
  fileCoverage : Rat
deriving DecidableEq, Repr

/-- Embedding of the `_index_command` decision segment (lines 883-917): status
`success` stands for the run continuing to the embed/upsert phase, which exits
0 unless a later fatal error occurs. -/
def index_decision (filesScanned indexedFiles chunksTotal : Nat) (minCoverage : Rat) :
    IndexOutcome :=
  let coverage : Rat := if filesScanned = 0 then 1 else (indexedFiles : Rat) / (filesScanned : Rat)
  if chunksTotal = 0 then ⟨"empty", 0, coverage⟩
  else if coverage < minCoverage then ⟨"insufficient_coverage", 1, coverage⟩
  else ⟨"success", 0, coverage⟩

/-! ## Vector store collection lifecycle: apps/indexer/indexer/qdrant_store.py

The store is modelled as an association list from collection name to the
vector parameters that `create_collection` writes (the named-vectors branch of
`ensure_collection` concerns collections created by other tools and is not
reachable for states produced by this model). -/

/-- The vector parameters of one collection. -/
structure CollectionInfo where
  size : Nat
  distance : String
deriving DecidableEq, Repr

/-- The collections held by the store, keyed by name. -/
abbrev QdrantState := List (String × CollectionInfo)

/-- Python `str.lower()` (ASCII case folding, as the identifiers in this
development require). -/
def pyLower (s : String) : String := String.mk (s.toList.map Char.toLower)

/-- Embedding of `_resolve_distance`: lower-case key looked up among the four
known metrics, raising on an unknown value. -/
def resolve_distance (distanceStr : String) : Except String String :=
  let key := pyLower distanceStr
  if key = "cosine" ∨ key = "euclid" ∨ key = "dot" ∨ key = "manhattan" then .ok key
  else .error ("Distância inválida: " ++ distanceStr ++ ". Válidas: cosine, euclid, dot, manhattan")

/-- Decidable equality for `Except`, needed to evaluate store results. -/
instance {ε α : Type} [DecidableEq ε] [DecidableEq α] : DecidableEq (Except ε α) := fun x y =>
  match x, y with
  | .error a, .error b =>
      if h : a = b then .isTrue (by rw [h]) else .isFalse (by intro hc; cases hc; exact h rfl)
  | .error _, .ok _ => .isFalse (fun hc => Except.noConfusion hc)
  | .ok _, .error _ => .isFalse (fun hc => Except.noConfusion hc)
  | .ok a, .ok b =>
      if h : a = b then .isTrue (by rw [h]) else .isFalse (by intro hc; cases hc; exact h rfl)

/-- The dict returned by `ensure_collection`. -/
structure EnsureResult where
  action : String
  collection : String
  vectorSize : Nat
  distance : String
deriving DecidableEq, Repr

/-- Embedding of `_get_collection_info`: the collection record or `none`. -/
def get_collection_info (st : QdrantState) (name : String) : Option CollectionInfo :=
  (st.find? (fun p => p.1 == name)).map (fun p => p.2)

/-- Embedding of `ensure_collection`: create when absent, validate when the
size matches, raise `QdrantCollectionError` citing both sizes otherwise.
`cfgDistance` is `self.config.distance`. -/
def ensure_collection (cfgDistance : String) (st : QdrantState) (collectionName : String)
    (vectorSize : Nat) : Except String (QdrantState × EnsureResult) :=
  match resolve_distance cfgDistance with
  | .error e => .error e
  | .ok dist =>
    match get_collection_info st collectionName with
    | none =>
        .ok (st ++ [(collectionName, ⟨vectorSize, dist⟩)],
             ⟨"created", collectionName, vectorSize, cfgDistance⟩)
    | some info =>
        if info.size ≠ vectorSize then
          .error ("Collection '" ++ collectionName ++ "' tem vector size " ++ toString info.size
                  ++ ", mas embedding model retorna " ++ toString vectorSize
                  ++ ". Use outra collection ou delete a existente.")
        else
          .ok (st, ⟨"validated", collectionName, info.size, cfgDistance⟩)

/-- Bool test that `needle` occurs as a contiguous substring of `hay`, the
semantics of the Python `in` operator on strings: the needle is a prefix of
some suffix of the hay. -/
def strContains : List Char → List Char → Bool
  | [], needle => needle.isPrefixOf []
  | cc :: t, needle => needle.isPrefixOf (cc :: t) || strContains t needle

/-! ## Embedder client: apps/indexer/indexer/embedder.py

The HTTP layer is modelled by an oracle giving the outcome of the POST of
each attempt; embedding vectors are opaque values of a type parameter. The
returned record carries, besides the result, the number of requests issued
and the sleeps performed (in milliseconds), in order. -/

/-- Configuration of the embedder (`EmbedderConfig` dataclass). -/
structure EmbedderConfig where
  ollamaUrl : String
  model : String
  batchSize : Nat
  maxRetries : Nat
  backoffBaseMs : Nat
  timeoutSeconds : Nat
deriving DecidableEq, Repr

/-- Outcome of one HTTP POST to `/api/embed`: the exceptions `httpx`
raises (timeout, connect error, `raise_for_status` on a 4xx/5xx code) or a
parsed response body. -/
inductive ReqOutcome (α : Type) where
  | timeout
  | connectErr
  | httpStatus (code : Nat)
  | success (embeddings : List (List α))
deriving DecidableEq, Repr

/-- The embedder error taxonomy: transport errors, `EmbedderValidationError`
for count/size mismatches, `EmbedderRetryError` wrapping the last cause. -/
inductive EmbedError where
  | timeout
  | connectErr
  | httpStatus (code : Nat)
  | validationCount (got expected : Nat)
  | validationSize (got expected : Nat)
  | retryExhausted (last : Option EmbedError)

/-- Embedding of `_should_retry`: timeouts and connect errors retry, an HTTP
status retries only when the code is at least 500, anything else is fatal. -/
def should_retry : EmbedError → Bool
  | .timeout => true
  | .connectErr => true
  | .httpStatus code => 500 ≤ code
  | _ => false

/-- Embedding of `_request_embeddings`: perform the POST of attempt number
`attempt` and validate that the embedding count matches the text count. -/
def request_embeddings {α : Type} (oracle : Nat → ReqOutcome α) (texts : List String)
    (attempt : Nat) : Except EmbedError (List (List α)) :=
  match oracle attempt with
  | .timeout => .error .timeout
  | .connectErr => .error .connectErr
  | .httpStatus code => .error (.httpStatus code)
  | .success es =>
      if es.length ≠ texts.length then .error (.validationCount es.length texts.length)
      else .ok es

/-- One `try` body of the retry loop of `embed_texts`: the request followed by
the optional first-vector size validation. -/
def attempt_once {α : Type} (oracle : Nat → ReqOutcome α) (texts : List String)
    (expectedVectorSize : Option Nat) (attempt : Nat) : Except EmbedError (List (List α)) :=
  match request_embeddings oracle texts attempt with
  | .error e => .error e
  | .ok es =>
      match es, expectedVectorSize with
      | e0 :: _, some v =>
          if e0.length ≠ v then .error (.validationSize e0.length v) else .ok es
      | _, _ => .ok es

/-- Result of a call to `embed_texts`: outcome plus the observable effects
(number of HTTP requests, sleeps in ms in order). -/
structure EmbedOutcome (α : Type) where
  result : Except EmbedError (List (List α))
  attempts : Nat
  sleepsMs : List Nat

/-- The retry loop `for attempt in range(max_retries)` of `embed_texts`,
counting down the remaining iterations; falling off the loop raises
`EmbedderRetryError` wrapping the last error. The sleep of
`backoff_base_ms * 2^attempt` ms happens only when the attempt failed with a
retryable error and `attempt < max_retries - 1`. -/
def embedGo {α : Type} (cfg : EmbedderConfig) (oracle : Nat → ReqOutcome α)
    (texts : List String) (expectedVectorSize : Option Nat) :
    Nat → Nat → Option EmbedError → EmbedOutcome α
  | 0, _, lastError => ⟨.error (.retryExhausted lastError), 0, []⟩
  | remaining + 1, attempt, _ =>
    match attempt_once oracle texts expectedVectorSize attempt with
    | .ok es => ⟨.ok es, 1, []⟩
    | .error exc =>
      if should_retry exc then
        let rest := embedGo cfg oracle texts expectedVectorSize remaining (attempt + 1) (some exc)
        ⟨rest.result, rest.attempts + 1,
         (if attempt + 1 < cfg.maxRetries then [cfg.backoffBaseMs * 2 ^ attempt] else [])
           ++ rest.sleepsMs⟩
      else ⟨.error exc, 1, []⟩

/-- Embedding of `embed_texts`: empty input returns immediately, otherwise the
retry loop runs with `max_retries` iterations available. -/
def embed_texts {α : Type} (cfg : EmbedderConfig) (oracle : Nat → ReqOutcome α)
    (texts : List String) (expectedVectorSize : Option Nat) : EmbedOutcome α :=
  if texts.isEmpty then ⟨.ok [], 0, []⟩
  else embedGo cfg oracle texts expectedVectorSize cfg.maxRetries 0 none

/-- The batch slices `texts[i : i + batch_size]` for `i = 0, b, 2b, …`
(fueled; the fuel `texts.length` is sufficient whenever `batchSize ≥ 1`). -/
def batchesGo (batchSize : Nat) : Nat → List String → List (List String)
  | 0, _ => []
  | _ + 1, [] => []
  | fuel + 1, l => l.take batchSize :: batchesGo batchSize fuel (l.drop batchSize)

/-- Sequential per-batch calls of `embed_texts`, concatenating embeddings and
propagating the first error; the oracle is indexed by batch number. -/
def batchedGo {α : Type} (cfg : EmbedderConfig) (oracle : Nat → Nat → ReqOutcome α)
    (expectedVectorSize : Option Nat) : List (List String) → Nat → EmbedOutcome α
  | [], _ => ⟨.ok [], 0, []⟩
  | b :: rest, idx =>
    let out := embed_texts cfg (oracle idx) b expectedVectorSize
    match out.result with
    | .error e => ⟨.error e, out.attempts, out.sleepsMs⟩
    | .ok es =>
      let tail := batchedGo cfg oracle expectedVectorSize rest (idx + 1)
      ⟨tail.result.map (fun more => es ++ more),
       out.attempts + tail.attempts, out.sleepsMs ++ tail.sleepsMs⟩

/-- Embedding of `embed_texts_batched`. -/
def embed_texts_batched {α : Type} (cfg : EmbedderConfig) (oracle : Nat → Nat → ReqOutcome α)
    (texts : List String) (expectedVectorSize : Option Nat) : EmbedOutcome α :=
  if texts.isEmpty then ⟨.ok [], 0, []⟩
  else batchedGo cfg oracle expectedVectorSize (batchesGo cfg.batchSize texts.length texts) 0

/-! ## Paragraph chunker: apps/acp/src/code_compass_acp/chunker.py

Python strings are modelled as `List Char`. -/

/-- The whitespace characters stripped by Python `str.strip()` (ASCII ones;
the input texts contain no unicode whitespace). -/
def pySpace (cc : Char) : Bool :=
  cc = ' ' || cc = '\t' || cc = '\n' || cc = '\r' || cc = Char.ofNat 11 || cc = Char.ofNat 12

/-- Worker for `splitOnSep`: split at each leftmost occurrence of `sep`,
keeping empty pieces; `acc` is the current piece reversed. The fuel
`s.length + 1` is sufficient for a non-empty separator. -/
def splitGo (sep : List Char) : Nat → List Char → List Char → List (List Char)
  | 0, s, acc => [acc.reverse ++ s]
  | fuel + 1, s, acc =>
    match s with
    | [] => [acc.reverse]
    | cc :: rest =>
      if sep.isPrefixOf (cc :: rest) then
        acc.reverse :: splitGo sep fuel ((cc :: rest).drop sep.length) []
      else splitGo sep fuel rest (cc :: acc)

/-- The semantics of Python `str.split(sep)` for a non-empty separator. -/
def splitOnSep (sep s : List Char) : List (List Char) :=
  if sep.isEmpty then [s] else splitGo sep (s.length + 1) s []

/-- The `while start < len(chunk)` loop of `_split_long_chunks`, emitting
`chunk[start : start + max_size]` pieces (fueled; the fuel `s.length` is
sufficient whenever `maxSize ≥ 1`; for `maxSize = 0` the Python loop does not
terminate). -/
def hardSplitGo (maxSize : Nat) : Nat → List Char → List (List Char)
  | 0, _ => []
  | fuel + 1, s => if s.isEmpty then [] else s.take maxSize :: hardSplitGo maxSize fuel (s.drop maxSize)

/-- Embedding of `_split_long_chunks`. -/
def split_long_chunks (chunks : List (List Char)) (maxSize : Nat) : List (List Char) :=
  chunks.flatMap (fun cchunk =>
    if cchunk.length ≤ maxSize then [cchunk]
    else hardSplitGo maxSize cchunk.length cchunk)

/-- The greedy line-packing loop of `chunk_by_paragraph`: append lines to the
current chunk while the candidate (joined with a newline) stays within
`maxSize`. -/
def greedyLines (maxSize : Nat) (ls : List (List Char)) : List (List Char) :=
  let fold := ls.foldl (fun (acc : List (List Char) × List Char) line =>
    if acc.2.isEmpty then (acc.1, line)
    else if maxSize < (acc.2 ++ '\n' :: line).length then (acc.1 ++ [acc.2], line)
    else (acc.1, acc.2 ++ '\n' :: line)) ([], [])
  if fold.2.isEmpty then fold.1 else fold.1 ++ [fold.2]

/-- The per-paragraph body of the main loop of `chunk_by_paragraph` (the
first disjunct of the inner guard is dead code kept from the source). -/
def processParagraph (maxSize : Nat) (p : List Char) : List (List Char) :=
  if p.length ≤ maxSize then [p]
  else
    let ls := (splitOnSep ['\n'] p).filter (fun l => !l.isEmpty)
    if p.length ≤ maxSize || ls.isEmpty then [p]
    else greedyLines maxSize ls

/-- Embedding of `chunk_by_paragraph`. The paragraph filter `if p.strip()`
keeps exactly the paragraphs containing a non-whitespace character. -/
def chunk_by_paragraph (text : List Char) (maxSize : Nat) : List (List Char) :=
  let paragraphs := (splitOnSep ['\n', '\n'] text).filter (fun p => p.any (fun cc => !(pySpace cc)))
  if paragraphs.isEmpty then (if text.isEmpty then [] else [text])
  else split_long_chunks (paragraphs.flatMap (processParagraph maxSize)) maxSize

/-! ## Content-type classifier: apps/indexer/indexer/__main__.py

`_find_doc_path_hint` computes
`normalized = f"/{path.replace(chr(92), chr(47)).strip(chr(47)).lower()}"` —
note that only a LEADING slash is prepended — and returns the first
configured hint occurring as a substring; `_classify_content_type` then
classifies as docs when a hint matched or the lower-cased extension is among
the configured doc extensions. -/

/-- Backslash-to-slash replacement, `path.replace(chr(92), chr(47))`. -/
def bsToSlash (cc : Char) : Char := if cc = '\\' then '/' else cc

/-- Python `str.strip(chr(47))`: remove leading and trailing slashes. -/
def stripSlashes (s : List Char) : List Char :=
  ((s.dropWhile (fun cc => cc == '/')).reverse.dropWhile (fun cc => cc == '/')).reverse

/-- The normalized form built by `_find_doc_path_hint`: replace backslashes,
strip slashes, lower-case, and prepend a single leading slash. -/
def normalizeForHint (path : List Char) : List Char :=
  '/' :: (stripSlashes (path.map bsToSlash)).map Char.toLower

/-- Embedding of `_find_doc_path_hint`: the first configured hint that is a
substring of the normalized form. -/
def find_doc_path_hint (docPathHints : List (List Char)) (path : List Char) :
    Option (List Char) :=
  docPathHints.find? (fun hint => strContains (normalizeForHint path) hint)

/-- The final path component as `pathlib.PurePosixPath(path).name` computes
it: drop trailing slashes, take the segment after the last slash. -/
def pathName (p : List Char) : List Char :=
  ((p.reverse.dropWhile (fun cc => cc == '/')).takeWhile (fun cc => cc != '/')).reverse

/-- The extension as `pathlib.Path(path).suffix` computes it: the part of the
name from its last dot, empty when the name has no dot, starts with its only
dot, or ends with the dot. -/
def pathSuffix (p : List Char) : List Char :=
  let name := pathName p
  let afterRev := name.reverse.takeWhile (fun cc => cc != '.')
  if name.contains '.' ∧ 0 < afterRev.length ∧ afterRev.length + 1 < name.length then
    '.' :: afterRev.reverse
  else []

/-- Embedding of `_classify_content_type`. -/
def classify_content_type (docPathHints docExtensions : List (List Char)) (path : List Char) :
    List Char × Option (List Char) :=
  let ext := (pathSuffix path).map Char.toLower
  let pathHint := find_doc_path_hint docPathHints path
  if pathHint.isSome ∨ docExtensions.contains ext then ("docs".toList, pathHint)
  else ("code".toList, pathHint)

/-- The classifier as the specification words it: identical to
`classify_content_type` except that the normalized form is wrapped with BOTH
a leading and a trailing slash. -/
def classify_content_type_spec (docPathHints docExtensions : List (List Char))
    (path : List Char) : List Char × Option (List Char) :=
  let wrapped := normalizeForHint path ++ ['/']
  let ext := (pathSuffix path).map Char.toLower
  let pathHint := docPathHints.find? (fun hint => strContains wrapped hint)
  if pathHint.isSome ∨ docExtensions.contains ext then ("docs".toList, pathHint)
  else ("code".toList, pathHint)

/-! ## Agent model command: apps/acp/src/code_compass_acp/agent.py

The five session override fields and the bridge handle are the state touched
by `_handle_model_command`; bridge construction/start/close are modelled as
events, with bridges named by numeric identities. Profile resolution reads a
TOML file and is modelled by its outcome (`profileResult`, `profileError`),
and the outcome of building and starting the replacement bridge by a
three-valued `RefreshOutcome`. -/

/-- The five model-related override fields of `SessionState`. -/
structure ModelOverrides where
  model : Option String
  profile : Option String
  provider : Option String
  apiUrl : Option String
  apiKey : Option String
deriving DecidableEq, Repr

/-- The session state relevant to the model command. -/
structure AgentSession where
  overrides : ModelOverrides
  bridge : Nat
deriving DecidableEq, Repr

/-- Observable bridge lifecycle events, in order of occurrence. -/
inductive BridgeEvent where
  | built (b : Nat)
  | started (b : Nat)
  | closed (b : Nat)
deriving DecidableEq, Repr

/-- Outcome of constructing and starting the replacement bridge. -/
inductive RefreshOutcome where
  | buildFail
  | startFail
  | success
deriving DecidableEq, Repr

/-- A loaded model profile (`ModelProfile` dataclass). -/
structure AcpModelProfile where
  name : String
  model : String
  provider : Option String
  apiUrl : Option String
  apiKey : Option String
deriving DecidableEq, Repr

/-- The selector values that reset the model overrides. -/
def MODEL_RESET_VALUES : List String := ["default", "reset"]

/-- Embedding of `_refresh_bridge_for_model_settings`: build the new bridge,
start it, and only then replace and close the previous one; when the start
fails the new bridge is closed, the exception propagates, and the session
bridge is left untouched. -/
def refresh_bridge_for_model_settings (st : AgentSession) (newBridge : Nat)
    (outcome : RefreshOutcome) : Except Unit AgentSession × List BridgeEvent :=
  match outcome with
  | .buildFail => (.error (), [])
  | .startFail => (.error (), [.built newBridge, .closed newBridge])
  | .success => (.ok { st with bridge := newBridge },
                 [.built newBridge, .started newBridge, .closed st.bridge])

/-- A mutating branch of `_handle_model_command`: set the overrides, refresh
the bridge, and on exception restore the snapshot (the Python `except` block
with `state_changed = True`). -/
def applyOverridesAndRefresh (st : AgentSession) (snapshot ov : ModelOverrides)
    (newBridge : Nat) (outcome : RefreshOutcome) : AgentSession × List BridgeEvent × Bool :=
  let stSet : AgentSession := { st with overrides := ov }
  match refresh_bridge_for_model_settings stSet newBridge outcome with
  | (.ok stNew, evs) => (stNew, evs, true)
  | (.error _, evs) => ({ stSet with overrides := snapshot }, evs, true)

/-- Embedding of the selector branch of `_handle_model_command` (`selector`
is `parts[1].strip()`); the returned Bool is the `state_changed` flag. -/
def handle_model_selector (st : AgentSession) (selector : String)
    (profileResult : Option AcpModelProfile) (profileError : Option String)
    (newBridge : Nat) (outcome : RefreshOutcome) : AgentSession × List BridgeEvent × Bool :=
  if selector.isEmpty then (st, [], false)
  else
    let snapshot := st.overrides
    if MODEL_RESET_VALUES.contains (pyLower selector) then
      applyOverridesAndRefresh st snapshot ⟨none, none, none, none, none⟩ newBridge outcome
    else if profileError.isSome then
      if "profile:".toList.isPrefixOf (pyLower selector).toList then (st, [], false)
      else applyOverridesAndRefresh st snapshot ⟨some selector, none, none, none, none⟩
        newBridge outcome
    else
      match profileResult with
      | some p =>
          applyOverridesAndRefresh st snapshot
            ⟨some p.model, some p.name, p.provider, p.apiUrl, p.apiKey⟩ newBridge outcome
      | none =>
          applyOverridesAndRefresh st snapshot ⟨some selector, none, none, none, none⟩
            newBridge outcome

/-! ## Scope resolution: apps/acp/src/code_compass_acp/agent.py -/

/-- Python `str.strip()` on a Lean `String`. -/
def pyStrip (s : String) : String :=
  String.mk (((s.toList.dropWhile pySpace).reverse.dropWhile pySpace).reverse)

/-- The comma-separated pieces of a string, Python `value.split(",")`. -/
def splitCommas (value : String) : List String :=
  (splitOnSep [','] value.toList).map (fun piece => String.mk piece)

/-- Embedding of `_parse_repos_csv`: split on commas, strip each entry, skip
empties, and append entries not seen before. -/
def parse_repos_csv (value : String) : List String :=
  (splitCommas value).foldl (fun repos raw =>
    let repo := pyStrip raw
    if repo.isEmpty then repos
    else if repos.contains repo then repos
    else repos ++ [repo]) []

/-- The scope variants of the `ask_code` payload. -/
inductive Scope where
  | repo (r : String)
  | repos (rs : List String)
  | all
deriving DecidableEq, Repr

/-- Embedding of `_resolve_scope`. -/
def resolve_scope (rawRepo : String) : Scope :=
  let parsed := parse_repos_csv rawRepo
  if parsed.length = 1 then .repo (parsed.headD "")
  else if 1 < parsed.length then .repos parsed
  else .repo rawRepo

/-- Python `a or b` for an optional string `a`: empty and missing strings are
falsy. -/
def pyOrStr (a : Option String) (b : String) : String :=
  match a with
  | some s => if s.isEmpty then b else s
  | none => b

/-- The raw repo string of `_build_ask_payload`:
`(state.repo_override or os.getenv(ACP_REPO, "code-compass")).strip()`. -/
def effective_raw_repo (repoOverride envAcpRepo : Option String) : String :=
  pyStrip (pyOrStr repoOverride (envAcpRepo.getD "code-compass"))

/-- The scope field of the `ask_code` payload built by `_build_ask_payload`. -/
def build_ask_scope (repoOverride envAcpRepo : Option String) : Scope :=
  resolve_scope (effective_raw_repo repoOverride envAcpRepo)

/-- Duplicate removal keeping the first occurrence of each element. -/
def dedupFirst : List String → List String
  | [] => []
  | x :: xs => x :: dedupFirst (xs.filter (fun y => y != x))
termination_by l => l.length
decreasing_by
  simp only [List.length_cons]
  exact Nat.lt_succ_of_le (List.length_filter_le _ _)

/-- A 301-character string consisting only of spaces. -/
def spaces301 : List Char := List.replicate 301 ' '

/-! # Theorems -/

/-! ## Properties of the line chunker (C1, C2) -/

theorem take_drop_ne_nil {lines : List String} {i c : Nat}
    (hi : i < lines.length) (hc : 1 ≤ c) : (lines.drop i).take c ≠ [] := by
  intro h
  have h1 : min c (lines.length - i) = 0 := by
    simpa [List.length_take, List.length_drop] using congrArg List.length h
  rcases Nat.min_eq_zero_iff.mp h1 with h2 | h2 <;> omega

theorem chunkGo_succ_last {lines : List String} {c step fuel i : Nat}
    (hi : i < lines.length) (hc : 1 ≤ c) (hend : lines.length ≤ i + c) :
    chunkGo lines c step (fuel + 1) i = [(i + 1, lines.length, (lines.drop i).take c)] := by
  have hne := take_drop_ne_nil hi hc
  have hmin : min (i + c) lines.length = lines.length := Nat.min_eq_right hend
  simp [chunkGo, hi, hmin, List.isEmpty_iff, hne]

theorem chunkGo_succ_cont {lines : List String} {c step fuel i : Nat}
    (hi : i < lines.length) (hc : 1 ≤ c) (hend : i + c < lines.length) :
    chunkGo lines c step (fuel + 1) i =
      (i + 1, i + c, (lines.drop i).take c) :: chunkGo lines c step fuel (i + step) := by
  have hne := take_drop_ne_nil hi hc
  have hmin : min (i + c) lines.length = i + c := Nat.min_eq_left (Nat.le_of_lt hend)
  have hnot : ¬ lines.length ≤ i + c := Nat.not_le.mpr hend
  simp [chunkGo, hi, hmin, List.isEmpty_iff, hne, hnot]

theorem chunkGo_bounds {lines : List String} {c step : Nat} (hc : 1 ≤ c) :
    ∀ fuel i, ∀ w ∈ chunkGo lines c step fuel i,
      i + 1 ≤ w.1 ∧ w.1 ≤ w.2.1 ∧ w.2.1 ≤ lines.length := by
  intro fuel
  induction fuel with
  | zero => intro i w hw; simp [chunkGo] at hw
  | succ fuel ih =>
    intro i w hw
    by_cases hi : i < lines.length
    · rcases Nat.lt_or_ge (i + c) lines.length with hend | hend
      · rw [chunkGo_succ_cont hi hc hend] at hw
        rcases List.mem_cons.mp hw with hw | hw
        · subst hw
          exact ⟨Nat.le_refl _, by show i + 1 ≤ i + c; omega, by show i + c ≤ lines.length; omega⟩
        · have h3 := ih (i + step) w hw
          exact ⟨by omega, h3.2.1, h3.2.2⟩
      · rw [chunkGo_succ_last hi hc hend] at hw
        rcases List.mem_cons.mp hw with hw | hw
        · subst hw
          exact ⟨Nat.le_refl _, by show i + 1 ≤ lines.length; omega, Nat.le_refl _⟩
        · simp at hw
    · cases fuel <;> simp [chunkGo, hi] at hw

theorem chunkGo_cover {lines : List String} {c step : Nat}
    (hc : 1 ≤ c) (hstep : 1 ≤ step) (hsc : step ≤ c) :
    ∀ fuel i, i < lines.length → lines.length - i ≤ fuel →
      ∀ l, i + 1 ≤ l → l ≤ lines.length →
        ∃ w ∈ chunkGo lines c step fuel i, w.1 ≤ l ∧ l ≤ w.2.1 := by
  intro fuel
  induction fuel with
  | zero => intro i hi hf; exact absurd hi (by omega)
  | succ fuel ih =>
    intro i hi hf l hl1 hl2
    rcases Nat.lt_or_ge (i + c) lines.length with hend | hend
    · by_cases hlc : l ≤ i + c
      · refine ⟨(i + 1, i + c, (lines.drop i).take c), ?_, hl1, hlc⟩
        rw [chunkGo_succ_cont hi hc hend]
        exact List.mem_cons_self _ _
      · have hi2 : i + step < lines.length := by omega
        have hf2 : lines.length - (i + step) ≤ fuel := by omega
        obtain ⟨w, hwmem, hw1, hw2⟩ := ih (i + step) hi2 hf2 l (by omega) hl2
        refine ⟨w, ?_, hw1, hw2⟩
        rw [chunkGo_succ_cont hi hc hend]
        exact List.mem_cons_of_mem _ hwmem
    · refine ⟨(i + 1, lines.length, (lines.drop i).take c), ?_, hl1, hl2⟩
      rw [chunkGo_succ_last hi hc hend]
      exact List.mem_cons_self _ _

theorem chunkGo_last {lines : List String} {c step : Nat}
    (hc : 1 ≤ c) (hstep : 1 ≤ step) (hsc : step ≤ c) :
    ∀ fuel i, i < lines.length → lines.length - i ≤ fuel →
      ∃ w, (chunkGo lines c step fuel i).getLast? = some w ∧ w.2.1 = lines.length := by
  intro fuel
  induction fuel with
  | zero => intro i hi hf; exact absurd hi (by omega)
  | succ fuel ih =>
    intro i hi hf
    rcases Nat.lt_or_ge (i + c) lines.length with hend | hend
    · have hi2 : i + step < lines.length := by omega
      have hf2 : lines.length - (i + step) ≤ fuel := by omega
      obtain ⟨w, hw, hwn⟩ := ih (i + step) hi2 hf2
      refine ⟨w, ?_, hwn⟩
      rw [chunkGo_succ_cont hi hc hend]
      cases htail : chunkGo lines c step fuel (i + step) with
      | nil => rw [htail] at hw; simp at hw
      | cons t ts => rw [htail] at hw; rw [List.getLast?_cons_cons]; exact hw
    · exact ⟨(i + 1, lines.length, (lines.drop i).take c),
        by rw [chunkGo_succ_last hi hc hend]; rfl, rfl⟩

theorem chunkGo_dropLast {lines : List String} {c step : Nat}
    (hc : 1 ≤ c) (hstep : 1 ≤ step) (hsc : step ≤ c) :
    ∀ fuel i, i < lines.length → lines.length - i ≤ fuel →
      ∀ w ∈ (chunkGo lines c step fuel i).dropLast, w.2.1 < lines.length := by
  intro fuel
  induction fuel with
  | zero => intro i hi hf; exact absurd hi (by omega)
  | succ fuel ih =>
    intro i hi hf w hw
    rcases Nat.lt_or_ge (i + c) lines.length with hend | hend
    · have hi2 : i + step < lines.length := by omega
      have hf2 : lines.length - (i + step) ≤ fuel := by omega
      rw [chunkGo_succ_cont hi hc hend] at hw
      obtain ⟨wl, hwl, -⟩ := chunkGo_last hc hstep hsc fuel (i + step) hi2 hf2
      cases htail : chunkGo lines c step fuel (i + step) with
      | nil => rw [htail] at hwl; simp at hwl
      | cons t ts =>
        rw [htail, List.dropLast_cons₂] at hw
        rcases List.mem_cons.mp hw with hw | hw
        · subst hw; exact hend
        · exact ih (i + step) hi2 hf2 w (htail.symm ▸ hw)
    · rw [chunkGo_succ_last hi hc hend] at hw
      simp at hw

theorem chunkGo_head {lines : List String} {c step : Nat} (hc : 1 ≤ c) :
    ∀ fuel i, i < lines.length → 1 ≤ fuel →
      ∃ blk, (chunkGo lines c step fuel i).head? = some (i + 1, min (i + c) lines.length, blk) := by
  intro fuel i hi hf
  cases fuel with
  | zero => omega
  | succ fuel =>
    rcases Nat.lt_or_ge (i + c) lines.length with hend | hend
    · rw [chunkGo_succ_cont hi hc hend]
      exact ⟨(lines.drop i).take c, by rw [Nat.min_eq_left (Nat.le_of_lt hend)]; rfl⟩
    · rw [chunkGo_succ_last hi hc hend]
      exact ⟨(lines.drop i).take c, by rw [Nat.min_eq_right hend]; rfl⟩

theorem chunkGo_chain {lines : List String} {c step : Nat}
    (hc : 1 ≤ c) (hstep : 1 ≤ step) (hsc : step ≤ c) :
    ∀ fuel i, i < lines.length → lines.length - i ≤ fuel →
      List.Chain' (fun a b => b.1 = a.1 + step) (chunkGo lines c step fuel i) := by
  intro fuel
  induction fuel with
  | zero => intro i hi hf; exact absurd hi (by omega)
  | succ fuel ih =>
    intro i hi hf
    rcases Nat.lt_or_ge (i + c) lines.length with hend | hend
    · rw [chunkGo_succ_cont hi hc hend]
      have hi2 : i + step < lines.length := by omega
      have hf2 : lines.length - (i + step) ≤ fuel := by omega
      refine List.chain'_cons'.mpr ⟨?_, ih (i + step) hi2 hf2⟩
      intro y hy
      obtain ⟨blk, hhead⟩ := chunkGo_head hc fuel (i + step) hi2 (by omega)
      rw [hhead] at hy
      have hy2 : y = (i + step + 1, min (i + step + c) lines.length, blk) := by
        simpa [Option.mem_def] using hy.symm
      subst hy2
      show i + step + 1 = (i + 1) + step
      omega
    · rw [chunkGo_succ_last hi hc hend]
      exact List.chain'_singleton _

/-- C1: for a non-empty list of `n` lines and parameters with
`1 ≤ chunkLines` and `overlap < chunkLines`, every window `(startLine,
endLine)` returned by the line chunker satisfies `1 ≤ startLine ≤ endLine ≤
n`; the windows cover every line of `[1..n]`; the last window ends at `n`;
every window except the last ends strictly before `n` (so iteration stops at
the first window whose end reaches `n`); and consecutive windows advance the
start by exactly `chunkLines - overlap`. -/
theorem chunk_lines_impl_spec (lines : List String) (c o : Nat)
    (hne : lines ≠ []) (hc : 1 ≤ c) (ho : o < c) :
    (∀ w ∈ chunk_lines_impl lines c o, 1 ≤ w.1 ∧ w.1 ≤ w.2.1 ∧ w.2.1 ≤ lines.length)
    ∧ (∀ l, 1 ≤ l → l ≤ lines.length →
        ∃ w ∈ chunk_lines_impl lines c o, w.1 ≤ l ∧ l ≤ w.2.1)
    ∧ (∃ w, (chunk_lines_impl lines c o).getLast? = some w ∧ w.2.1 = lines.length)
    ∧ (∀ w ∈ (chunk_lines_impl lines c o).dropLast, w.2.1 < lines.length)
    ∧ List.Chain' (fun a b => b.1 = a.1 + (c - o)) (chunk_lines_impl lines c o) := by
  have hlen : 0 < lines.length := List.length_pos.mpr hne
  have hE : lines.isEmpty = false := by
    cases lines with
    | nil => exact absurd rfl hne
    | cons a l => rfl
  have hstep : 1 ≤ c - o := by omega
  have hsc : c - o ≤ c := by omega
  have himpl : chunk_lines_impl lines c o = chunkGo lines c (c - o) (lines.length + 1) 0 := by
    simp [chunk_lines_impl, hE]
  refine ⟨?_, ?_, ?_, ?_, ?_⟩
  · intro w hw
    have h3 := chunkGo_bounds hc (lines.length + 1) 0 w (himpl ▸ hw)
    exact ⟨h3.1, h3.2.1, h3.2.2⟩
  · intro l hl1 hl2
    rw [himpl]
    exact chunkGo_cover hc hstep hsc (lines.length + 1) 0 hlen (by omega) l hl1 hl2
  · rw [himpl]
    exact chunkGo_last hc hstep hsc (lines.length + 1) 0 hlen (by omega)
  · rw [himpl]
    exact chunkGo_dropLast hc hstep hsc (lines.length + 1) 0 hlen (by omega)
  · rw [himpl]
    exact chunkGo_chain hc hstep hsc (lines.length + 1) 0 hlen (by omega)

/-- Witness for C1 on a concrete 7-line file with chunkLines 4, overlap 1. -/
theorem chunk_lines_impl_spec_witness :
    ((["a", "b", "c", "d", "e", "f", "g"] : List String) ≠ []) ∧ 1 ≤ 4 ∧ 1 < 4 ∧
      ((∀ w ∈ chunk_lines_impl ["a", "b", "c", "d", "e", "f", "g"] 4 1,
          1 ≤ w.1 ∧ w.1 ≤ w.2.1 ∧ w.2.1 ≤ (["a", "b", "c", "d", "e", "f", "g"] : List String).length)
        ∧ (∀ l, 1 ≤ l → l ≤ (["a", "b", "c", "d", "e", "f", "g"] : List String).length →
            ∃ w ∈ chunk_lines_impl ["a", "b", "c", "d", "e", "f", "g"] 4 1, w.1 ≤ l ∧ l ≤ w.2.1)
        ∧ (∃ w, (chunk_lines_impl ["a", "b", "c", "d", "e", "f", "g"] 4 1).getLast? = some w
            ∧ w.2.1 = (["a", "b", "c", "d", "e", "f", "g"] : List String).length)
        ∧ (∀ w ∈ (chunk_lines_impl ["a", "b", "c", "d", "e", "f", "g"] 4 1).dropLast,
            w.2.1 < (["a", "b", "c", "d", "e", "f", "g"] : List String).length)
        ∧ List.Chain' (fun a b => b.1 = a.1 + (4 - 1))
            (chunk_lines_impl ["a", "b", "c", "d", "e", "f", "g"] 4 1)) :=
  ⟨by decide, by decide, by decide,
    chunk_lines_impl_spec ["a", "b", "c", "d", "e", "f", "g"] 4 1 (by decide) (by decide) (by decide)⟩

/-- C2 counterexample: for the 7-line example file with chunkLines 4 and
overlap 1 the windows are indeed `(1..4)` and `(4..7)`, but the first chunkId
is NOT the SHA-256 of the composition joined with the `|` separator: the
source composes with `:`. -/
theorem make_chunk_id_pipe_counterexample :
    ((chunk_file "path" c2Text 4 1).map (fun ck => (ck.startLine, ck.endLine)) = [(1, 4), (4, 7)])
    ∧ ((chunk_file "path" c2Text 4 1).headD dummyFileChunk).chunkId
        ≠ sha256HexOfString ("path" ++ "|" ++ toString (1 : Nat) ++ "|" ++ toString (4 : Nat)
            ++ "|" ++ hash_content c2Text) :=
  ⟨by decide, by decide⟩

/-- C2 (amended): every chunk produced by `chunk_file` has `contentHash` equal
to the SHA-256 of the decoded text and `chunkId` equal to the SHA-256 of
path, startLine, endLine and contentHash joined in that order with the `:`
separator (the specification says `|`); in particular with chunkLines 4 and
overlap 1 the 7-line example yields exactly the windows `(1..4)` and `(4..7)`
and the first chunkId equals recomputing SHA-256 of
`"path:1:4:<contentHash>"`. -/
theorem chunk_file_chunk_id_spec :
    (∀ (path text : String) (cL ov : Nat), ∀ ck ∈ chunk_file path text cL ov,
        ck.contentHash = sha256HexOfString text
        ∧ ck.chunkId = sha256HexOfString
            (path ++ ":" ++ toString ck.startLine ++ ":" ++ toString ck.endLine ++ ":"
              ++ sha256HexOfString text))
    ∧ ((chunk_file "path" c2Text 4 1).map (fun ck => (ck.startLine, ck.endLine)) = [(1, 4), (4, 7)])
    ∧ ((chunk_file "path" c2Text 4 1).headD dummyFileChunk).chunkId
        = sha256HexOfString ("path" ++ ":" ++ toString (1 : Nat) ++ ":" ++ toString (4 : Nat)
            ++ ":" ++ hash_content c2Text) := by
  refine ⟨?_, by decide, by decide⟩
  intro path text cL ov ck hck
  simp only [chunk_file, List.mem_map] at hck
  obtain ⟨w, hw, rfl⟩ := hck
  exact ⟨rfl, rfl⟩

/-- Witness for the universally quantified part of the C2 theorem, at the
first chunk of the concrete example. -/
theorem chunk_file_chunk_id_spec_witness :
    ((chunk_file "path" c2Text 4 1).headD dummyFileChunk ∈ chunk_file "path" c2Text 4 1)
    ∧ ((chunk_file "path" c2Text 4 1).headD dummyFileChunk).contentHash
        = sha256HexOfString c2Text :=
  ⟨by decide, (chunk_file_chunk_id_spec.1 "path" c2Text 4 1 _ (by decide)).1⟩

/-! ## Index command decision (C3) -/

/-- C3 counterexample: with 1 scanned file, 0 indexed files and 0 chunks the
coverage 0 is below the default minimum 95/100, yet the command reports
status `empty` and exits 0 — not `insufficient_coverage` with a non-zero
exit, as the claim would require of every low-coverage run. -/
theorem index_decision_counterexample :
    (index_decision 1 0 0 (95 / 100)).fileCoverage < 95 / 100
    ∧ (index_decision 1 0 0 (95 / 100)).status = "empty"
    ∧ (index_decision 1 0 0 (95 / 100)).exitCode = 0
    ∧ (index_decision 1 0 0 (95 / 100)).status ≠ "insufficient_coverage" :=
  ⟨by norm_num [index_decision], by norm_num [index_decision],
   by norm_num [index_decision], by simp [index_decision]⟩

/-- C3 (amended): the zero-chunk check comes first: with zero chunks the
command reports `empty` and exits 0 even when the coverage is below the
minimum; otherwise coverage below the minimum reports
`insufficient_coverage` and exits 1; otherwise the run proceeds; and with
zero scanned files the coverage is 1 by definition (else it is
indexed/scanned). -/
theorem index_decision_spec (filesScanned indexedFiles chunksTotal : Nat) (minCoverage : Rat) :
    (index_decision filesScanned indexedFiles chunksTotal minCoverage).fileCoverage
      = (if filesScanned = 0 then (1 : Rat) else (indexedFiles : Rat) / (filesScanned : Rat))
    ∧ (chunksTotal = 0 →
        (index_decision filesScanned indexedFiles chunksTotal minCoverage).status = "empty"
        ∧ (index_decision filesScanned indexedFiles chunksTotal minCoverage).exitCode = 0)
    ∧ (chunksTotal ≠ 0 →
        (index_decision filesScanned indexedFiles chunksTotal minCoverage).fileCoverage
            < minCoverage →
        (index_decision filesScanned indexedFiles chunksTotal minCoverage).status
            = "insufficient_coverage"
        ∧ (index_decision filesScanned indexedFiles chunksTotal minCoverage).exitCode = 1)
    ∧ (chunksTotal ≠ 0 →
        ¬ (index_decision filesScanned indexedFiles chunksTotal minCoverage).fileCoverage
            < minCoverage →
        (index_decision filesScanned indexedFiles chunksTotal minCoverage).status = "success"
        ∧ (index_decision filesScanned indexedFiles chunksTotal minCoverage).exitCode = 0) := by
  have hcov : (index_decision filesScanned indexedFiles chunksTotal minCoverage).fileCoverage
      = (if filesScanned = 0 then (1 : Rat) else (indexedFiles : Rat) / (filesScanned : Rat)) := by
    simp only [index_decision]
    split_ifs <;> rfl
  refine ⟨hcov, ?_, ?_, ?_⟩
  · intro h0
    simp [index_decision, h0]
  · intro h0 hlt
    rw [hcov] at hlt
    simp only [index_decision]
    rw [if_neg h0, if_pos hlt]
    exact ⟨rfl, rfl⟩
  · intro h0 hlt
    rw [hcov] at hlt
    simp only [index_decision]
    rw [if_neg h0, if_neg hlt]
    exact ⟨rfl, rfl⟩

/-- Witness for C3 at 20 scanned files, 19 indexed, 5 chunks and the default
minimum 95/100: coverage 19/20 = 0.95 is not below the minimum, so the run
proceeds with exit 0. -/
theorem index_decision_spec_witness :
    ((5 : Nat) ≠ 0)
    ∧ ¬ (index_decision 20 19 5 (95 / 100)).fileCoverage < 95 / 100
    ∧ (index_decision 20 19 5 (95 / 100)).status = "success"
    ∧ (index_decision 20 19 5 (95 / 100)).exitCode = 0 := by
  have hnot : ¬ (index_decision 20 19 5 (95 / 100)).fileCoverage < 95 / 100 := by
    norm_num [index_decision]
  have h := (index_decision_spec 20 19 5 (95 / 100)).2.2.2 (by norm_num) hnot
  exact ⟨by norm_num, hnot, h.1, h.2⟩

/-! ## Collection lifecycle (C4) -/

theorem find?_append_none {α : Type} (p : α → Bool) (l₁ l₂ : List α) (h : l₁.find? p = none) :
    (l₁ ++ l₂).find? p = l₂.find? p := by
  induction l₁ with
  | nil => rfl
  | cons a t ih =>
    by_cases hpa : p a = true
    · rw [List.find?_cons_of_pos _ hpa] at h; exact absurd h (by simp)
    · rw [List.find?_cons_of_neg _ hpa] at h
      rw [List.cons_append, List.find?_cons_of_neg _ hpa]
      exact ih h

theorem toList_append (a b : String) : (a ++ b).toList = a.toList ++ b.toList :=
  String.data_append a b

theorem isPrefixOf_append_self (a b : List Char) : a.isPrefixOf (a ++ b) = true := by
  induction a with
  | nil => rw [List.nil_append]; cases b <;> rfl
  | cons x t ih => simp [List.isPrefixOf, ih]

theorem strContains_exact (pre needle suf : List Char) :
    strContains (pre ++ (needle ++ suf)) needle = true := by
  induction pre with
  | nil =>
    rw [List.nil_append]
    cases hns : needle ++ suf with
    | nil =>
      rcases List.append_eq_nil.mp hns with ⟨h1, h2⟩
      subst h1; subst h2; rfl
    | cons y ys =>
      rw [strContains]
      have hpre : needle.isPrefixOf (y :: ys) = true := by
        rw [← hns]; exact isPrefixOf_append_self needle suf
      rw [hpre, Bool.true_or]
  | cons x t ih =>
    rw [List.cons_append, strContains, ih, Bool.or_true]

/-- C4: `ensure_collection` is idempotent — after a successful call, a second
call with the same name and dimension succeeds, leaves the store exactly as
the first call left it and reports "validated" — and a call on a collection
existing with a different dimension fails with an error message citing both
dimensions (and produces no new store state). -/
theorem ensure_collection_spec :
    (∀ (cfgDistance : String) (st : QdrantState) (name : String) (d : Nat)
        (st2 : QdrantState) (res : EnsureResult),
        ensure_collection cfgDistance st name d = .ok (st2, res) →
        ensure_collection cfgDistance st2 name d
          = .ok (st2, ⟨"validated", name, d, cfgDistance⟩))
    ∧ (∀ (cfgDistance dist : String) (st : QdrantState) (name : String) (d : Nat)
        (info : CollectionInfo),
        resolve_distance cfgDistance = .ok dist →
        get_collection_info st name = some info →
        info.size ≠ d →
        ∃ msg, ensure_collection cfgDistance st name d = .error msg
          ∧ strContains msg.toList (toString info.size).toList = true
          ∧ strContains msg.toList (toString d).toList = true) := by
  constructor
  · intro cfgDistance st name d st2 res hok
    rcases hres : resolve_distance cfgDistance with e | dist
    · simp only [ensure_collection, hres] at hok
      exact Except.noConfusion hok
    · rcases hinfo : get_collection_info st name with _ | info
      · simp only [ensure_collection, hres, hinfo, Except.ok.injEq, Prod.mk.injEq] at hok
        obtain ⟨hst2, hres2⟩ := hok
        have hnone : st.find? (fun p => p.1 == name) = none := by
          have h3 : (st.find? (fun p => p.1 == name)).map (fun p => p.2) = none := hinfo
          exact Option.map_eq_none'.mp h3
        have hfind : get_collection_info (st ++ [(name, (⟨d, dist⟩ : CollectionInfo))]) name
            = some ⟨d, dist⟩ := by
          show ((st ++ [(name, (⟨d, dist⟩ : CollectionInfo))]).find?
            (fun p => p.1 == name)).map (fun p => p.2) = some ⟨d, dist⟩
          rw [find?_append_none _ _ _ hnone]
          simp [List.find?]
        rw [← hst2]
        simp only [ensure_collection, hres, hfind]
        simp
      · simp only [ensure_collection, hres, hinfo] at hok
        by_cases hsz : info.size ≠ d
        · rw [if_pos hsz] at hok
          exact absurd hok (by simp)
        · rw [if_neg hsz] at hok
          simp only [Except.ok.injEq, Prod.mk.injEq] at hok
          obtain ⟨hst2, hres2⟩ := hok
          have hszd : info.size = d := by omega
          rw [← hst2]
          simp only [ensure_collection, hres, hinfo, hszd]
          simp
  · intro cfgDistance dist st name d info hres hinfo hsz
    refine ⟨"Collection '" ++ name ++ "' tem vector size " ++ toString info.size
        ++ ", mas embedding model retorna " ++ toString d
        ++ ". Use outra collection ou delete a existente.", ?_, ?_, ?_⟩
    · simp only [ensure_collection, hres, hinfo, if_pos hsz]
    · have h1 : ("Collection '" ++ name ++ "' tem vector size " ++ toString info.size
          ++ ", mas embedding model retorna " ++ toString d
          ++ ". Use outra collection ou delete a existente.").toList
          = ("Collection '" ++ name ++ "' tem vector size ").toList
            ++ ((toString info.size).toList
              ++ ((", mas embedding model retorna " ++ toString d
                  ++ ". Use outra collection ou delete a existente.").toList)) := by
        simp [toList_append, List.append_assoc]
      rw [h1]
      exact strContains_exact _ _ _
    · have h2 : ("Collection '" ++ name ++ "' tem vector size " ++ toString info.size
          ++ ", mas embedding model retorna " ++ toString d
          ++ ". Use outra collection ou delete a existente.").toList
          = ("Collection '" ++ name ++ "' tem vector size " ++ toString info.size
              ++ ", mas embedding model retorna ").toList
            ++ ((toString d).toList
              ++ (". Use outra collection ou delete a existente.").toList) := by
        simp [toList_append, List.append_assoc]
      rw [h2]
      exact strContains_exact _ _ _

/-- Witness for C4: creating collection `x` with dimension 768 in the empty
store, then re-ensuring it, validates; and ensuring `x` with 3584 against a
store holding it at 768 fails with a message citing 768 and 3584. -/
theorem ensure_collection_spec_witness :
    (ensure_collection "cosine" [] "x" 768
        = .ok ([("x", ⟨768, "cosine"⟩)], ⟨"created", "x", 768, "cosine"⟩))
    ∧ (ensure_collection "cosine" [("x", ⟨768, "cosine"⟩)] "x" 768
        = .ok ([("x", ⟨768, "cosine"⟩)], ⟨"validated", "x", 768, "cosine"⟩))
    ∧ (∃ msg, ensure_collection "cosine" [("x", ⟨768, "cosine"⟩)] "x" 3584 = .error msg
        ∧ strContains msg.toList (toString (768 : Nat)).toList = true
        ∧ strContains msg.toList (toString (3584 : Nat)).toList = true) :=
  ⟨by decide,
   ensure_collection_spec.1 "cosine" [] "x" 768 [("x", ⟨768, "cosine"⟩)]
     ⟨"created", "x", 768, "cosine"⟩ (by decide),
   ensure_collection_spec.2 "cosine" "cosine" [("x", ⟨768, "cosine"⟩)] "x" 3584
     ⟨768, "cosine"⟩ (by decide) (by decide) (by decide)⟩

/-! ## Embedder retry policy (C5, C9) -/

theorem attempt_once_ne_retryExhausted {α : Type} (oracle : Nat → ReqOutcome α)
    (texts : List String) (ev : Option Nat) (attempt : Nat) (l : Option EmbedError) :
    attempt_once oracle texts ev attempt ≠ .error (.retryExhausted l) := by
  cases ho : oracle attempt with
  | timeout => simp [attempt_once, request_embeddings, ho]
  | connectErr => simp [attempt_once, request_embeddings, ho]
  | httpStatus code => simp [attempt_once, request_embeddings, ho]
  | success es =>
    simp only [attempt_once, request_embeddings, ho]
    by_cases hlen : es.length ≠ texts.length
    · simp [hlen]
    · rw [if_neg hlen]
      cases es with
      | nil => cases ev <;> simp
      | cons e0 rest =>
        cases ev with
        | none => simp
        | some v =>
          by_cases hsz : e0.length ≠ v
          · simp [hsz]
          · simp [hsz]

theorem embedGo_attempts_pos {α : Type} (cfg : EmbedderConfig) (oracle : Nat → ReqOutcome α)
    (texts : List String) (ev : Option Nat) (remaining attempt : Nat)
    (lastError : Option EmbedError) (hr : 1 ≤ remaining) :
    1 ≤ (embedGo cfg oracle texts ev remaining attempt lastError).attempts := by
  cases remaining with
  | zero => omega
  | succ r =>
    cases h : attempt_once oracle texts ev attempt with
    | ok es => simp [embedGo, h]
    | error exc =>
      by_cases hretry : should_retry exc = true
      · simp [embedGo, h, hretry]
      · simp [embedGo, h, hretry]

theorem embedGo_attempts_le {α : Type} (cfg : EmbedderConfig) (oracle : Nat → ReqOutcome α)
    (texts : List String) (ev : Option Nat) :
    ∀ (remaining attempt : Nat) (lastError : Option EmbedError),
      (embedGo cfg oracle texts ev remaining attempt lastError).attempts ≤ remaining := by
  intro remaining
  induction remaining with
  | zero => intro attempt lastError; simp [embedGo]
  | succ r ih =>
    intro attempt lastError
    cases h : attempt_once oracle texts ev attempt with
    | ok es => simp [embedGo, h]
    | error exc =>
      by_cases hretry : should_retry exc = true
      · have h2 := ih (attempt + 1) (some exc)
        simp [embedGo, h, hretry]
        omega
      · simp [embedGo, h, hretry]

theorem embedGo_succ_retry {α : Type} (cfg : EmbedderConfig) (oracle : Nat → ReqOutcome α)
    (texts : List String) (ev : Option Nat) (r attempt : Nat) (lastError : Option EmbedError)
    (exc : EmbedError) (h : attempt_once oracle texts ev attempt = .error exc)
    (hretry : should_retry exc = true) :
    embedGo cfg oracle texts ev (r + 1) attempt lastError
      = ⟨(embedGo cfg oracle texts ev r (attempt + 1) (some exc)).result,
         (embedGo cfg oracle texts ev r (attempt + 1) (some exc)).attempts + 1,
         (if attempt + 1 < cfg.maxRetries then [cfg.backoffBaseMs * 2 ^ attempt] else [])
           ++ (embedGo cfg oracle texts ev r (attempt + 1) (some exc)).sleepsMs⟩ := by
  simp [embedGo, h, hretry]

theorem embedGo_sleeps {α : Type} (cfg : EmbedderConfig) (oracle : Nat → ReqOutcome α)
    (texts : List String) (ev : Option Nat) :
    ∀ (remaining attempt : Nat) (lastError : Option EmbedError),
      attempt + remaining = cfg.maxRetries →
      (embedGo cfg oracle texts ev remaining attempt lastError).sleepsMs
        = (List.range ((embedGo cfg oracle texts ev remaining attempt lastError).attempts - 1)).map
            (fun k => cfg.backoffBaseMs * 2 ^ (attempt + k)) := by
  intro remaining
  induction remaining with
  | zero => intro attempt lastError hsum; simp [embedGo]
  | succ r ih =>
    intro attempt lastError hsum
    cases h : attempt_once oracle texts ev attempt with
    | ok es => simp [embedGo, h]
    | error exc =>
      by_cases hretry : should_retry exc = true
      · rw [embedGo_succ_retry cfg oracle texts ev r attempt lastError exc h hretry]
        cases r with
        | zero =>
          have hcond : ¬ (attempt + 1 < cfg.maxRetries) := by omega
          simp [embedGo, hcond]
        | succ r2 =>
          have hcond : attempt + 1 < cfg.maxRetries := by omega
          have hpos : 1 ≤ (embedGo cfg oracle texts ev (r2 + 1) (attempt + 1) (some exc)).attempts :=
            embedGo_attempts_pos cfg oracle texts ev (r2 + 1) (attempt + 1) (some exc) (by omega)
          have hih := ih (attempt + 1) (some exc) (by omega)
          obtain ⟨m0, hm⟩ : ∃ m0,
              (embedGo cfg oracle texts ev (r2 + 1) (attempt + 1) (some exc)).attempts = m0 + 1 :=
            ⟨(embedGo cfg oracle texts ev (r2 + 1) (attempt + 1) (some exc)).attempts - 1, by omega⟩
          rw [if_pos hcond, hih, hm]
          show cfg.backoffBaseMs * 2 ^ attempt ::
              (List.range m0).map (fun k => cfg.backoffBaseMs * 2 ^ (attempt + 1 + k))
            = (List.range (m0 + 1 + 1 - 1)).map (fun k => cfg.backoffBaseMs * 2 ^ (attempt + k))
          rw [Nat.add_sub_cancel, List.range_succ_eq_map, List.map_cons, List.map_map]
          rw [Nat.add_zero]
          refine congrArg (fun l => cfg.backoffBaseMs * 2 ^ attempt :: l) ?_
          refine List.map_congr_left ?_
          intro k hk
          show cfg.backoffBaseMs * 2 ^ (attempt + 1 + k) = cfg.backoffBaseMs * 2 ^ (attempt + (k + 1))
          rw [show attempt + 1 + k = attempt + (k + 1) from by omega]
      · simp [embedGo, h, hretry]

theorem embedGo_retried {α : Type} (cfg : EmbedderConfig) (oracle : Nat → ReqOutcome α)
    (texts : List String) (ev : Option Nat) :
    ∀ (remaining attempt : Nat) (lastError : Option EmbedError) (k : Nat),
      k + 1 < (embedGo cfg oracle texts ev remaining attempt lastError).attempts →
      ∃ e, attempt_once oracle texts ev (attempt + k) = .error e ∧ should_retry e = true := by
  intro remaining
  induction remaining with
  | zero => intro attempt lastError k hk; simp [embedGo] at hk
  | succ r ih =>
    intro attempt lastError k hk
    cases h : attempt_once oracle texts ev attempt with
    | ok es => simp [embedGo, h] at hk
    | error exc =>
      by_cases hretry : should_retry exc = true
      · simp only [embedGo, h, hretry] at hk
        cases k with
        | zero => exact ⟨exc, by simpa using h, hretry⟩
        | succ k2 =>
          obtain ⟨e, he, hre⟩ := ih (attempt + 1) (some exc) k2 (by simp at hk; omega)
          refine ⟨e, ?_, hre⟩
          rwa [show attempt + 1 + k2 = attempt + (k2 + 1) from by omega] at he
      · simp [embedGo, h, hretry] at hk

theorem embedGo_ok {α : Type} (cfg : EmbedderConfig) (oracle : Nat → ReqOutcome α)
    (texts : List String) (ev : Option Nat) :
    ∀ (remaining attempt : Nat) (lastError : Option EmbedError) (es : List (List α)),
      (embedGo cfg oracle texts ev remaining attempt lastError).result = .ok es →
      attempt_once oracle texts ev
        (attempt + ((embedGo cfg oracle texts ev remaining attempt lastError).attempts - 1))
        = .ok es := by
  intro remaining
  induction remaining with
  | zero => intro attempt lastError es hok; simp [embedGo] at hok
  | succ r ih =>
    intro attempt lastError es hok
    cases h : attempt_once oracle texts ev attempt with
    | ok es2 =>
      have hes : es2 = es := by simpa [embedGo, h] using hok
      subst hes
      simpa [embedGo, h] using h
    | error exc =>
      by_cases hretry : should_retry exc = true
      · have hres : (embedGo cfg oracle texts ev r (attempt + 1) (some exc)).result = .ok es := by
          simpa [embedGo, h, hretry] using hok
        have hpos : 1 ≤ (embedGo cfg oracle texts ev r (attempt + 1) (some exc)).attempts := by
          cases r with
          | zero => exfalso; simp [embedGo] at hres
          | succ r2 =>
            exact embedGo_attempts_pos cfg oracle texts ev (r2 + 1) (attempt + 1) (some exc)
              (by omega)
        have hih := ih (attempt + 1) (some exc) es hres
        have hat : (embedGo cfg oracle texts ev (r + 1) attempt lastError).attempts
            = (embedGo cfg oracle texts ev r (attempt + 1) (some exc)).attempts + 1 := by
          simp [embedGo, h, hretry]
        rw [hat]
        rwa [show attempt + ((embedGo cfg oracle texts ev r (attempt + 1) (some exc)).attempts
            + 1 - 1)
            = (attempt + 1) + ((embedGo cfg oracle texts ev r (attempt + 1)
                (some exc)).attempts - 1) from by omega]
      · exfalso; simp [embedGo, h, hretry] at hok

theorem embedGo_fatal {α : Type} (cfg : EmbedderConfig) (oracle : Nat → ReqOutcome α)
    (texts : List String) (ev : Option Nat) :
    ∀ (remaining attempt : Nat) (lastError : Option EmbedError) (e : EmbedError),
      (embedGo cfg oracle texts ev remaining attempt lastError).result = .error e →
      (∀ l, e ≠ .retryExhausted l) →
      attempt_once oracle texts ev
        (attempt + ((embedGo cfg oracle texts ev remaining attempt lastError).attempts - 1))
        = .error e
      ∧ should_retry e = false := by
  intro remaining
  induction remaining with
  | zero =>
    intro attempt lastError e hok hne
    have : EmbedError.retryExhausted lastError = e := by simpa [embedGo] using hok
    exact absurd this.symm (hne lastError)
  | succ r ih =>
    intro attempt lastError e hok hne
    cases h : attempt_once oracle texts ev attempt with
    | ok es2 => exfalso; simp [embedGo, h] at hok
    | error exc =>
      by_cases hretry : should_retry exc = true
      · have hres : (embedGo cfg oracle texts ev r (attempt + 1) (some exc)).result = .error e := by
          simpa [embedGo, h, hretry] using hok
        have hpos : 1 ≤ (embedGo cfg oracle texts ev r (attempt + 1) (some exc)).attempts := by
          cases r with
          | zero =>
            exfalso
            have : EmbedError.retryExhausted (some exc) = e := by simpa [embedGo] using hres
            exact absurd this.symm (hne (some exc))
          | succ r2 =>
            exact embedGo_attempts_pos cfg oracle texts ev (r2 + 1) (attempt + 1) (some exc)
              (by omega)
        have hih := ih (attempt + 1) (some exc) e hres hne
        have hat : (embedGo cfg oracle texts ev (r + 1) attempt lastError).attempts
            = (embedGo cfg oracle texts ev r (attempt + 1) (some exc)).attempts + 1 := by
          simp [embedGo, h, hretry]
        rw [hat]
        refine ⟨?_, hih.2⟩
        have := hih.1
        rwa [show (attempt + 1) + ((embedGo cfg oracle texts ev r (attempt + 1)
              (some exc)).attempts - 1)
            = attempt + ((embedGo cfg oracle texts ev r (attempt + 1) (some exc)).attempts
              + 1 - 1) from by omega] at this
      · have hexc : exc = e := by simpa [embedGo, h, hretry] using hok
        subst hexc
        constructor
        · simpa [embedGo, h, hretry] using h
        · exact Bool.not_eq_true _ ▸ (by simpa using hretry)

theorem embedGo_exhausted {α : Type} (cfg : EmbedderConfig) (oracle : Nat → ReqOutcome α)
    (texts : List String) (ev : Option Nat) :
    ∀ (remaining attempt : Nat) (lastError : Option EmbedError) (l : Option EmbedError),
      (embedGo cfg oracle texts ev remaining attempt lastError).result
        = .error (.retryExhausted l) →
      (embedGo cfg oracle texts ev remaining attempt lastError).attempts = remaining
      ∧ (1 ≤ remaining → ∃ e, l = some e ∧ should_retry e = true
          ∧ attempt_once oracle texts ev (attempt + (remaining - 1)) = .error e)
      ∧ (remaining = 0 → l = lastError) := by
  intro remaining
  induction remaining with
  | zero =>
    intro attempt lastError l hok
    have hl : lastError = l := by simpa [embedGo] using hok
    exact ⟨by simp [embedGo], by omega, fun _ => hl.symm⟩
  | succ r ih =>
    intro attempt lastError l hok
    cases h : attempt_once oracle texts ev attempt with
    | ok es2 => exfalso; simp [embedGo, h] at hok
    | error exc =>
      by_cases hretry : should_retry exc = true
      · have hres : (embedGo cfg oracle texts ev r (attempt + 1) (some exc)).result
            = .error (.retryExhausted l) := by
          simpa [embedGo, h, hretry] using hok
        obtain ⟨ha, hb, hc⟩ := ih (attempt + 1) (some exc) l hres
        have hat : (embedGo cfg oracle texts ev (r + 1) attempt lastError).attempts
            = (embedGo cfg oracle texts ev r (attempt + 1) (some exc)).attempts + 1 := by
          simp [embedGo, h, hretry]
        refine ⟨by rw [hat, ha], ?_, by omega⟩
        intro _
        cases r with
        | zero =>
          refine ⟨exc, hc rfl, hretry, ?_⟩
          simpa using h
        | succ r2 =>
          obtain ⟨e, he1, he2, he3⟩ := hb (by omega)
          refine ⟨e, he1, he2, ?_⟩
          rwa [show (attempt + 1) + (r2 + 1 - 1) = attempt + (r2 + 1 + 1 - 1) from by omega]
            at he3
      · have hexc : exc = .retryExhausted l := by simpa [embedGo, h, hretry] using hok
        rw [hexc] at h
        exact absurd h (attempt_once_ne_retryExhausted oracle texts ev attempt l)

theorem should_retry_iff (e : EmbedError) :
    should_retry e = true
      ↔ (e = .timeout ∨ e = .connectErr ∨ ∃ code, e = .httpStatus code ∧ 500 ≤ code) := by
  cases e <;> simp [should_retry]

/-- C5: for every non-empty input, `embed_texts` issues at most `maxRetries`
requests; it sleeps exactly `backoffBaseMs * 2^attempt` ms between consecutive
attempts; every attempt that was followed by another failed with a retryable
error, and retryable means exactly connect/timeout errors and HTTP status at
least 500; a success or a non-retryable error (HTTP 4xx and validation
errors) ends the loop at that attempt, the non-retryable error being raised
as-is without further attempts; and when every attempt fails with a
retryable error the result is the retry-exhausted error wrapping the error
of the last attempt. -/
theorem embed_texts_retry_spec {α : Type} (cfg : EmbedderConfig) (oracle : Nat → ReqOutcome α)
    (texts : List String) (ev : Option Nat) (hne : texts ≠ []) :
    (embed_texts cfg oracle texts ev).attempts ≤ cfg.maxRetries
    ∧ (embed_texts cfg oracle texts ev).sleepsMs
        = (List.range ((embed_texts cfg oracle texts ev).attempts - 1)).map
            (fun k => cfg.backoffBaseMs * 2 ^ k)
    ∧ (∀ k, k + 1 < (embed_texts cfg oracle texts ev).attempts →
        ∃ e, attempt_once oracle texts ev k = .error e ∧ should_retry e = true)
    ∧ (∀ es, (embed_texts cfg oracle texts ev).result = .ok es →
        attempt_once oracle texts ev ((embed_texts cfg oracle texts ev).attempts - 1) = .ok es)
    ∧ (∀ e, (embed_texts cfg oracle texts ev).result = .error e →
        (∀ l, e ≠ .retryExhausted l) →
        attempt_once oracle texts ev ((embed_texts cfg oracle texts ev).attempts - 1) = .error e
        ∧ should_retry e = false)
    ∧ (∀ l, (embed_texts cfg oracle texts ev).result = .error (.retryExhausted l) →
        (embed_texts cfg oracle texts ev).attempts = cfg.maxRetries
        ∧ (1 ≤ cfg.maxRetries → ∃ e, l = some e ∧ should_retry e = true
            ∧ attempt_once oracle texts ev (cfg.maxRetries - 1) = .error e))
    ∧ (∀ e, should_retry e = true
        ↔ (e = .timeout ∨ e = .connectErr ∨ ∃ code, e = .httpStatus code ∧ 500 ≤ code)) := by
  have hE : texts.isEmpty = false := by
    cases texts with
    | nil => exact absurd rfl hne
    | cons a l => rfl
  have hunf : embed_texts cfg oracle texts ev = embedGo cfg oracle texts ev cfg.maxRetries 0 none := by
    simp [embed_texts, hE]
  rw [hunf]
  refine ⟨embedGo_attempts_le cfg oracle texts ev cfg.maxRetries 0 none, ?_, ?_, ?_, ?_, ?_,
    fun e => should_retry_iff e⟩
  · rw [embedGo_sleeps cfg oracle texts ev cfg.maxRetries 0 none (by omega)]
    refine List.map_congr_left ?_
    intro k hk
    rw [Nat.zero_add]
  · intro k hk
    have := embedGo_retried cfg oracle texts ev cfg.maxRetries 0 none k hk
    rwa [Nat.zero_add] at this
  · intro es hok
    have := embedGo_ok cfg oracle texts ev cfg.maxRetries 0 none es hok
    rwa [Nat.zero_add] at this
  · intro e hok hnl
    have := embedGo_fatal cfg oracle texts ev cfg.maxRetries 0 none e hok hnl
    rwa [Nat.zero_add] at this
  · intro l hok
    have h7 := embedGo_exhausted cfg oracle texts ev cfg.maxRetries 0 none l hok
    refine ⟨h7.1, ?_⟩
    intro hmr
    have := h7.2.1 hmr
    rwa [Nat.zero_add] at this

/-- Witness for C5 on a 3-retry configuration whose first attempt returns
HTTP 500 and whose second succeeds. -/
theorem embed_texts_retry_spec_witness :
    ((["a"] : List String) ≠ [])
    ∧ (embed_texts (α := Int) ⟨"u", "m", 16, 3, 500, 120⟩
        (fun attempt => if attempt = 0 then .httpStatus 500 else .success [[1]])
        ["a"] none).attempts ≤ (3 : Nat) :=
  ⟨by decide,
   (embed_texts_retry_spec ⟨"u", "m", 16, 3, 500, 120⟩
     (fun attempt => if attempt = 0 then .httpStatus 500 else .success [[1]])
     ["a"] none (by decide)).1⟩

/-- C9: on the empty list of texts both `embed_texts` and
`embed_texts_batched` return the empty embedding list immediately: zero HTTP
requests, zero sleeps, and a success result. -/
theorem embed_texts_empty_spec {α : Type} (cfg : EmbedderConfig) (oracle : Nat → ReqOutcome α)
    (oracleB : Nat → Nat → ReqOutcome α) (ev : Option Nat) :
    embed_texts cfg oracle [] ev = ⟨.ok [], 0, []⟩
    ∧ embed_texts_batched cfg oracleB [] ev = ⟨.ok [], 0, []⟩ :=
  ⟨rfl, rfl⟩


/-! ## Paragraph chunker (C6) -/

theorem hardSplitGo_le (m : Nat) :
    ∀ (fuel : Nat) (s : List Char), ∀ cchunk ∈ hardSplitGo m fuel s, cchunk.length ≤ m := by
  intro fuel
  induction fuel with
  | zero => intro s c hc; simp [hardSplitGo] at hc
  | succ fuel ih =>
    intro s c hc
    by_cases hs : s.isEmpty = true
    · simp [hardSplitGo, hs] at hc
    · simp only [hardSplitGo, hs, Bool.false_eq_true, if_false, List.mem_cons] at hc
      rcases hc with hc | hc
      · subst hc
        rw [List.length_take]
        exact Nat.min_le_left _ _
      · exact ih _ c hc

theorem split_long_chunks_le (chunks : List (List Char)) (m : Nat) :
    ∀ cchunk ∈ split_long_chunks chunks m, cchunk.length ≤ m := by
  intro c hc
  simp only [split_long_chunks, List.mem_flatMap] at hc
  obtain ⟨x, hx, hcx⟩ := hc
  by_cases hxm : x.length ≤ m
  · rw [if_pos hxm] at hcx
    simp at hcx
    subst hcx
    exact hxm
  · rw [if_neg hxm] at hcx
    exact hardSplitGo_le m x.length x c hcx

/-- C6 (amended): for `maxSize ≥ 1`, whenever the input has at least one
paragraph containing a non-whitespace character, every chunk returned by
`chunk_by_paragraph` has length at most `maxSize`; and the empty input yields
the empty list. (Without the paragraph condition the claim fails: an input
that is non-empty but all whitespace is returned whole, bypassing the split.)
-/
theorem chunk_by_paragraph_spec (text : List Char) (maxSize : Nat) (hm : 1 ≤ maxSize)
    (hp : (splitOnSep ['\n', '\n'] text).filter (fun p => p.any (fun cc => !(pySpace cc))) ≠ []) :
    (∀ cchunk ∈ chunk_by_paragraph text maxSize, cchunk.length ≤ maxSize)
    ∧ chunk_by_paragraph [] maxSize = [] := by
  constructor
  · intro c hc
    have hP : ((splitOnSep ['\n', '\n'] text).filter
        (fun p => p.any (fun cc => !(pySpace cc)))).isEmpty = false := by
      cases h2 : (splitOnSep ['\n', '\n'] text).filter (fun p => p.any (fun cc => !(pySpace cc))) with
      | nil => exact absurd h2 hp
      | cons a l => rfl
    simp only [chunk_by_paragraph, hP, Bool.false_eq_true, if_false] at hc
    exact split_long_chunks_le _ _ c hc
  · rfl

/-- Witness for C6 at the two-character input "ab" with maxSize 1. -/
theorem chunk_by_paragraph_spec_witness :
    (1 : Nat) ≤ 1
    ∧ (splitOnSep ['\n', '\n'] ['a', 'b']).filter (fun p => p.any (fun cc => !(pySpace cc))) ≠ []
    ∧ ((∀ cchunk ∈ chunk_by_paragraph ['a', 'b'] 1, cchunk.length ≤ 1)
        ∧ chunk_by_paragraph [] 1 = []) :=
  ⟨by decide, by decide, chunk_by_paragraph_spec ['a', 'b'] 1 (by decide) (by decide)⟩

/-- C6 counterexample: a 301-character all-whitespace input with maxSize 300
is returned as a single chunk of length 301, violating the bound claimed for
every input. -/
theorem chunk_by_paragraph_counterexample :
    ∃ cchunk ∈ chunk_by_paragraph spaces301 300, 300 < cchunk.length := by decide

/-! ## Content-type classifier (C7) -/

theorem strContains_true_iff (hay needle : List Char) :
    strContains hay needle = true ↔ needle <:+: hay := by
  induction hay with
  | nil =>
    constructor
    · intro h
      cases needle with
      | nil => exact List.infix_rfl
      | cons c tl => simp [strContains, List.isPrefixOf] at h
    · intro h
      have hn : needle = [] := List.eq_nil_of_infix_nil h
      subst hn
      rfl
  | cons x xs ih =>
    rw [strContains]
    constructor
    · intro h
      rcases (Bool.or_eq_true _ _).mp h with h1 | h2
      · obtain ⟨s, hs⟩ := List.isPrefixOf_iff_prefix.mp h1
        exact ⟨[], s, by simpa using hs⟩
      · exact List.infix_cons (ih.mp h2)
    · intro h
      rcases List.infix_cons_iff.mp h with hpre | hinf
      · rw [List.isPrefixOf_iff_prefix.mpr hpre, Bool.true_or]
      · rw [ih.mpr hinf, Bool.or_true]

theorem find?_eq_some_first {α : Type} (p : α → Bool) :
    ∀ (l : List α) (a : α), l.find? p = some a →
      p a = true ∧ ∃ pre suf, l = pre ++ a :: suf ∧ ∀ b ∈ pre, p b = false := by
  intro l
  induction l with
  | nil => intro a h; simp [List.find?] at h
  | cons x xs ih =>
    intro a h
    by_cases hx : p x = true
    · rw [List.find?_cons_of_pos _ hx] at h
      have hxa : x = a := by simpa using h
      subst hxa
      exact ⟨hx, [], xs, rfl, by simp⟩
    · rw [List.find?_cons_of_neg _ hx] at h
      obtain ⟨hpa, pre, suf, hsplit, hpre⟩ := ih a h
      refine ⟨hpa, x :: pre, suf, by rw [hsplit]; rfl, ?_⟩
      intro b hb
      rcases List.mem_cons.mp hb with hb | hb
      · subst hb
        cases hpx : p b with
        | true => exact absurd hpx hx
        | false => rfl
      · exact hpre b hb

theorem classify_snd_eq (hints exts : List (List Char)) (path : List Char) :
    (classify_content_type hints exts path).2 = find_doc_path_hint hints path := by
  simp only [classify_content_type]
  split_ifs <;> rfl

/-- C7 (amended): the classifier lowercases the path, converts backslashes to
slashes, strips leading and trailing slashes, and prepends a single LEADING
slash (no trailing slash is appended, contrary to the claimed wrapping); on
that normalized form, if some configured hint occurs as a substring the
result is docs with the first matching hint, otherwise docs with no hint when
the lower-cased extension is configured as a doc extension, otherwise code.
-/
theorem classify_content_type_characterization (hints exts : List (List Char))
    (path : List Char) :
    (∀ hint, (classify_content_type hints exts path).2 = some hint →
        (classify_content_type hints exts path).1 = "docs".toList
        ∧ hint <:+: normalizeForHint path
        ∧ ∃ pre suf, hints = pre ++ hint :: suf
            ∧ ∀ h2 ∈ pre, ¬ h2 <:+: normalizeForHint path)
    ∧ ((classify_content_type hints exts path).2 = none →
        (∀ hint ∈ hints, ¬ hint <:+: normalizeForHint path)
        ∧ (classify_content_type hints exts path).1
            = (if (pathSuffix path).map Char.toLower ∈ exts then "docs".toList
               else "code".toList)) := by
  constructor
  · intro hint hh
    rw [classify_snd_eq] at hh
    have hh2 : hints.find? (fun h2 => strContains (normalizeForHint path) h2) = some hint := by
      simpa [find_doc_path_hint] using hh
    obtain ⟨hp, pre, suf, hsplit, hpre⟩ := find?_eq_some_first _ hints hint hh2
    refine ⟨?_, (strContains_true_iff _ _).mp hp, pre, suf, hsplit, ?_⟩
    · have hsome : (find_doc_path_hint hints path).isSome = true := by
        simp [find_doc_path_hint, hh2]
      simp [classify_content_type, hsome]
    · intro h2 hmem hcontra
      have hfalse := hpre h2 hmem
      simp only [] at hfalse
      rw [(strContains_true_iff _ _).mpr hcontra] at hfalse
      exact Bool.noConfusion hfalse
  · intro hh
    rw [classify_snd_eq] at hh
    have hh2 : hints.find? (fun h2 => strContains (normalizeForHint path) h2) = none := by
      simpa [find_doc_path_hint] using hh
    have hall := List.find?_eq_none.mp hh2
    constructor
    · intro hint hmem hcontra
      exact hall hint hmem ((strContains_true_iff _ _).mpr hcontra)
    · have hnone : (find_doc_path_hint hints path).isSome = false := by
        simp [find_doc_path_hint, hh2]
      by_cases hext : exts.contains ((pathSuffix path).map Char.toLower) = true
      · have hmem : (pathSuffix path).map Char.toLower ∈ exts := by
          simpa [List.elem_iff] using hext
        simp [classify_content_type, hnone, hext, hmem]
      · have hmem : ¬ (pathSuffix path).map Char.toLower ∈ exts := by
          intro hmem
          exact hext (by simpa [List.elem_iff] using hmem)
        simp [classify_content_type, hnone, hext, hmem]

/-- Witness for C7 on a path under a docs directory. -/
theorem classify_content_type_characterization_witness :
    (classify_content_type ["/docs/".toList] [".md".toList] "src/docs/guide.md".toList).2
        = some "/docs/".toList
    ∧ ((classify_content_type ["/docs/".toList] [".md".toList] "src/docs/guide.md".toList).1
          = "docs".toList
        ∧ "/docs/".toList <:+: normalizeForHint "src/docs/guide.md".toList
        ∧ ∃ pre suf, ["/docs/".toList] = pre ++ "/docs/".toList :: suf
            ∧ ∀ h2 ∈ pre, ¬ h2 <:+: normalizeForHint "src/docs/guide.md".toList) :=
  ⟨by decide,
   (classify_content_type_characterization ["/docs/".toList] [".md".toList]
     "src/docs/guide.md".toList).1 "/docs/".toList (by decide)⟩

/-- C7 counterexample: for the path `a/docs` with hint `/docs/`, the code
(which prepends only a leading slash) classifies as code with no hint, while
the wrapping described by the specification (leading AND trailing slash)
would classify as docs with hint `/docs/`. -/
theorem classify_content_type_counterexample :
    classify_content_type ["/docs/".toList] [".md".toList] "a/docs".toList
        = ("code".toList, none)
    ∧ classify_content_type_spec ["/docs/".toList] [".md".toList] "a/docs".toList
        = ("docs".toList, some "/docs/".toList)
    ∧ classify_content_type ["/docs/".toList] [".md".toList] "a/docs".toList
        ≠ classify_content_type_spec ["/docs/".toList] [".md".toList] "a/docs".toList :=
  ⟨by decide, by decide, by decide⟩


/-! ## Model command bridge refresh (C8) -/

theorem applyOverridesAndRefresh_fail (st : AgentSession) (ov : ModelOverrides)
    (newBridge : Nat) (outcome : RefreshOutcome) (hfresh : newBridge ≠ st.bridge)
    (hout : outcome ≠ .success) :
    (applyOverridesAndRefresh st st.overrides ov newBridge outcome).1 = st
    ∧ BridgeEvent.closed st.bridge
        ∉ (applyOverridesAndRefresh st st.overrides ov newBridge outcome).2.1 := by
  cases outcome with
  | success => exact absurd rfl hout
  | buildFail =>
    exact ⟨rfl, by simp [applyOverridesAndRefresh, refresh_bridge_for_model_settings]⟩
  | startFail =>
    refine ⟨rfl, ?_⟩
    simp [applyOverridesAndRefresh, refresh_bridge_for_model_settings, Ne.symm hfresh]

theorem applyOverridesAndRefresh_success (st : AgentSession) (ov : ModelOverrides)
    (newBridge : Nat) :
    applyOverridesAndRefresh st st.overrides ov newBridge .success
      = ({ overrides := ov, bridge := newBridge },
         [.built newBridge, .started newBridge, .closed st.bridge], true) := rfl

/-- C8: when the selector branch of the model command mutates the overrides
and building or starting the replacement bridge fails, the session is
restored exactly (all five override fields and the bridge), and the previous
bridge is never closed; when the replacement bridge starts successfully and
the command changed state, the events are build, start of the new bridge and
only then close of the previous one, and the session now owns the new
bridge. -/
theorem handle_model_selector_spec (st : AgentSession) (selector : String)
    (profileResult : Option AcpModelProfile) (profileError : Option String)
    (newBridge : Nat) (outcome : RefreshOutcome) (hfresh : newBridge ≠ st.bridge) :
    (outcome ≠ .success →
        (handle_model_selector st selector profileResult profileError newBridge outcome).1 = st
        ∧ BridgeEvent.closed st.bridge
            ∉ (handle_model_selector st selector profileResult profileError newBridge outcome).2.1)
    ∧ (outcome = .success →
        (handle_model_selector st selector profileResult profileError newBridge outcome).2.2
            = true →
        (handle_model_selector st selector profileResult profileError newBridge outcome).1.bridge
            = newBridge
        ∧ (handle_model_selector st selector profileResult profileError newBridge outcome).2.1
            = [.built newBridge, .started newBridge, .closed st.bridge]) := by
  have hred : handle_model_selector st selector profileResult profileError newBridge outcome
      = (st, [], false)
      ∨ ∃ ov, handle_model_selector st selector profileResult profileError newBridge outcome
          = applyOverridesAndRefresh st st.overrides ov newBridge outcome := by
    simp only [handle_model_selector]
    by_cases hsel : selector.isEmpty = true
    · rw [if_pos hsel]
      exact Or.inl rfl
    · rw [if_neg hsel]
      by_cases hreset : MODEL_RESET_VALUES.contains (pyLower selector) = true
      · rw [if_pos hreset]
        exact Or.inr ⟨_, rfl⟩
      · rw [if_neg hreset]
        by_cases herr : profileError.isSome = true
        · rw [if_pos herr]
          by_cases hpfx : "profile:".toList.isPrefixOf (pyLower selector).toList = true
          · rw [if_pos hpfx]
            exact Or.inl rfl
          · rw [if_neg hpfx]
            exact Or.inr ⟨_, rfl⟩
        · rw [if_neg herr]
          cases profileResult with
          | some p => exact Or.inr ⟨_, rfl⟩
          | none => exact Or.inr ⟨_, rfl⟩
  constructor
  · intro hout
    rcases hred with hred | ⟨ov, hred⟩
    · rw [hred]
      exact ⟨rfl, by simp⟩
    · rw [hred]
      exact applyOverridesAndRefresh_fail st ov newBridge outcome hfresh hout
  · intro hout hch
    subst hout
    rcases hred with hred | ⟨ov, hred⟩
    · rw [hred] at hch
      exact Bool.noConfusion hch
    · rw [hred, applyOverridesAndRefresh_success st ov newBridge]
      exact ⟨rfl, rfl⟩

/-- Witness for C8: a failed start of the replacement bridge leaves a
concrete session unchanged, with its bridge never closed. -/
theorem handle_model_selector_spec_witness :
    ((1 : Nat) ≠ 0)
    ∧ (RefreshOutcome.startFail ≠ RefreshOutcome.success)
    ∧ (handle_model_selector ⟨⟨some "m", none, none, none, none⟩, 0⟩ "gpt" none none 1
        .startFail).1 = ⟨⟨some "m", none, none, none, none⟩, 0⟩
    ∧ BridgeEvent.closed (0 : Nat)
        ∉ (handle_model_selector ⟨⟨some "m", none, none, none, none⟩, 0⟩ "gpt" none none 1
            .startFail).2.1 := by
  have h := (handle_model_selector_spec ⟨⟨some "m", none, none, none, none⟩, 0⟩ "gpt" none none 1
    .startFail (by decide)).1 (by decide)
  exact ⟨by decide, by decide, h.1, h.2⟩

/-! ## Scope resolution (C10) -/

theorem contains_append (l₁ l₂ : List String) (a : String) :
    (l₁ ++ l₂).contains a = (l₁.contains a || l₂.contains a) := by
  induction l₁ with
  | nil => simp
  | cons x xs ih => simp [List.contains_cons, ih, Bool.or_assoc]

theorem parse_fold_dedup :
    ∀ (entries : List String) (acc : List String),
      entries.foldl (fun repos raw =>
          let repo := pyStrip raw
          if repo.isEmpty then repos
          else if repos.contains repo then repos
          else repos ++ [repo]) acc
        = acc ++ dedupFirst ((entries.map pyStrip).filter
            (fun s => !s.isEmpty && !acc.contains s)) := by
  intro entries
  induction entries with
  | nil => intro acc; simp [dedupFirst]
  | cons raw rest ih =>
    intro acc
    rw [List.foldl_cons, List.map_cons, List.filter_cons]
    simp only []
    by_cases h1 : (pyStrip raw).isEmpty = true
    · have hb : (!(pyStrip raw).isEmpty) = false := by rw [h1]; rfl
      have hpred : (!(pyStrip raw).isEmpty && !acc.contains (pyStrip raw)) = false := by
        rw [hb, Bool.false_and]
      rw [hpred, if_pos h1]
      simp only [Bool.false_eq_true, if_false]
      exact ih acc
    · have h1f : (pyStrip raw).isEmpty = false := by
        cases hI : (pyStrip raw).isEmpty
        · rfl
        · exact absurd hI h1
      have h1b : (!(pyStrip raw).isEmpty) = true := by rw [h1f]; rfl
      by_cases h2 : acc.contains (pyStrip raw) = true
      · have h2b : (!acc.contains (pyStrip raw)) = false := by rw [h2]; rfl
        have hpred : (!(pyStrip raw).isEmpty && !acc.contains (pyStrip raw)) = false := by
          rw [h2b, Bool.and_false]
        rw [hpred, if_neg h1, if_pos h2]
        simp only [Bool.false_eq_true, if_false]
        exact ih acc
      · have h2f : acc.contains (pyStrip raw) = false := by
          cases hC : acc.contains (pyStrip raw)
          · rfl
          · exact absurd hC h2
        have h2b : (!acc.contains (pyStrip raw)) = true := by rw [h2f]; rfl
        have hpred : (!(pyStrip raw).isEmpty && !acc.contains (pyStrip raw)) = true := by
          rw [h1b, h2b]; rfl
        rw [hpred, if_neg h1, if_neg h2]
        simp only [if_true]
        rw [ih (acc ++ [pyStrip raw]), dedupFirst, List.append_assoc]
        refine congrArg (fun l => acc ++ l) ?_
        show pyStrip raw :: dedupFirst ((rest.map pyStrip).filter
            (fun s => !s.isEmpty && !(acc ++ [pyStrip raw]).contains s))
          = pyStrip raw :: dedupFirst (((rest.map pyStrip).filter
              (fun s => !s.isEmpty && !acc.contains s)).filter (fun y => y != pyStrip raw))
        refine congrArg (fun l => pyStrip raw :: dedupFirst l) ?_
        rw [List.filter_filter]
        refine List.filter_congr ?_
        intro y hy
        show (!y.isEmpty && !(acc ++ [pyStrip raw]).contains y)
            = ((y != pyStrip raw) && (!y.isEmpty && !acc.contains y))
        rw [contains_append]
        have hsing : [pyStrip raw].contains y = (y == pyStrip raw) := by
          rw [List.contains_cons]
          show (y == pyStrip raw || false) = (y == pyStrip raw)
          rw [Bool.or_false]
        rw [hsing]
        cases hE : y.isEmpty <;> cases hC : acc.contains y <;>
          cases hyx : (y == pyStrip raw) <;> simp [bne, hE, hC, hyx]

theorem parse_repos_csv_eq (value : String) :
    parse_repos_csv value
      = dedupFirst (((splitCommas value).map pyStrip).filter (fun s => !s.isEmpty)) := by
  rw [parse_repos_csv, parse_fold_dedup]
  rw [List.nil_append]
  refine congrArg dedupFirst (List.filter_congr ?_)
  intro y hy
  simp

/-- C10: the scope of the ask payload is built from the effective repo string
(the session override, else the ACP_REPO environment value, else
"code-compass", stripped): parsing the CSV yields the stripped non-empty
entries with later duplicates removed (first occurrence kept); one entry
gives a single-repo scope, several give a repos scope in that order, zero
entries fall back to a single-repo scope carrying the raw stripped string,
and the agent never produces the all scope. -/
theorem build_ask_scope_spec (repoOverride envAcpRepo : Option String) :
    parse_repos_csv (effective_raw_repo repoOverride envAcpRepo)
      = dedupFirst (((splitCommas (effective_raw_repo repoOverride envAcpRepo)).map
          pyStrip).filter (fun s => !s.isEmpty))
    ∧ ((parse_repos_csv (effective_raw_repo repoOverride envAcpRepo)).length = 1 →
        build_ask_scope repoOverride envAcpRepo
          = .repo ((parse_repos_csv (effective_raw_repo repoOverride envAcpRepo)).headD ""))
    ∧ (1 < (parse_repos_csv (effective_raw_repo repoOverride envAcpRepo)).length →
        build_ask_scope repoOverride envAcpRepo
          = .repos (parse_repos_csv (effective_raw_repo repoOverride envAcpRepo)))
    ∧ (parse_repos_csv (effective_raw_repo repoOverride envAcpRepo) = [] →
        build_ask_scope repoOverride envAcpRepo
          = .repo (effective_raw_repo repoOverride envAcpRepo))
    ∧ build_ask_scope repoOverride envAcpRepo ≠ .all := by
  refine ⟨parse_repos_csv_eq _, ?_, ?_, ?_, ?_⟩
  · intro h1
    simp [build_ask_scope, resolve_scope, h1]
  · intro h1
    have hne1 : ¬ (parse_repos_csv (effective_raw_repo repoOverride envAcpRepo)).length = 1 := by
      omega
    simp [build_ask_scope, resolve_scope, hne1, h1]
  · intro h1
    simp [build_ask_scope, resolve_scope, h1]
  · simp only [build_ask_scope, resolve_scope]
    split_ifs <;> simp

/-- Witness for C10: the override "a,b,a" yields the de-duplicated repos
scope. -/
theorem build_ask_scope_spec_witness :
    1 < (parse_repos_csv (effective_raw_repo (some "a,b,a") none)).length
    ∧ build_ask_scope (some "a,b,a") none
        = .repos (parse_repos_csv (effective_raw_repo (some "a,b,a") none)) :=
  ⟨by decide, (build_ask_scope_spec (some "a,b,a") none).2.2.1 (by decide)⟩

end CodeCompass
